import Mathlib

/-!
# Verification of the TermoPTbrSolver deduction core

Shallow embedding of `src/solver.py` (a CSP-style solver for the
Portuguese word-guessing game Termo).  Python strings are modelled as
`List Char`, Python dicts as insertion-ordered association lists
(`List (key × value)`, assignment replaces the first matching key in
place), Python sets as duplicate-free lists (`sadd` appends only when
absent, mirroring insertion order).  The visual feedback string built by
`check_guess` is presentation-only (ANSI colour formatting) and is not
modelled; the structured feedback list and the `is_correct` flag are.
The length-mismatch early return of `check_guess` (which returns the
sentinel message "Internal error: Invalid length" together with empty
feedback) is modelled as `Except.error`.
-/

set_option autoImplicit false

namespace TermoSolver

/-- Per-position letter status of the structured feedback
(`'correct'` / `'present'` / `'absent'` in the Python source). -/
inductive Status where
  | correct
  | present
  | absent
deriving DecidableEq, Repr

/-- One structured-feedback entry `(letter, status, index)`. -/
abbrev Entry := Char × Status × Nat

/-- A structured feedback list, as produced by `check_guess`. -/
abbrev Feedback := List Entry

/-- Constant `WORD_LENGTH = 5` from `solver.py`. -/
def WORD_LENGTH : Nat := 5

/-- Python dict read `d.get(k)` / `k in d`: first entry with the key. -/
def lookup {α β : Type} [DecidableEq α] (d : List (α × β)) (k : α) : Option β :=
  match d with
  | [] => none
  | (a, b) :: rest => if a = k then some b else lookup rest k

/-- Python dict read with default, `d.get(k, v0)`. -/
def lookupD {α β : Type} [DecidableEq α] (d : List (α × β)) (k : α) (v0 : β) : β :=
  (lookup d k).getD v0

/-- Python dict assignment `d[k] = v`: replace the first entry with key `k`
in place, else append. -/
def dinsert {α β : Type} [DecidableEq α] (d : List (α × β)) (k : α) (v : β) :
    List (α × β) :=
  match d with
  | [] => [(k, v)]
  | (a, b) :: rest => if a = k then (a, v) :: rest else (a, b) :: dinsert rest k v

/-- Python set `s.add(a)` (sets modelled as duplicate-free lists in
insertion order). -/
def sadd {α : Type} [DecidableEq α] (s : List α) (a : α) : List α :=
  if a ∈ s then s else s ++ [a]

/-- Python set `s.discard(a)`. -/
def sdiscard {α : Type} [DecidableEq α] (s : List α) (a : α) : List α :=
  s.filter (fun x => x ≠ a)

/-- Python `d[k] = d.get(k, 0) + 1` (counting-dict bump). -/
def bumpCount {α : Type} [DecidableEq α] (d : List (α × Nat)) (k : α) :
    List (α × Nat) :=
  dinsert d k (lookupD d k 0 + 1)

/-! ## `check_guess` (solver.py lines 67-110)

The all-correct early return fills every slot with `'correct'`; otherwise
pass 1 decrements the secret's letter counts at exact matches (a slot is
"marked" after pass 1 iff `guess[i] == secret[i]`, since the visual format
strings are never empty), and pass 2 assigns `present`/`absent` to the
unmarked slots, consuming the remaining counts left to right. -/

/-- The all-correct feedback of the `is_correct` early return,
starting at position `i`. -/
def allCorrect : List Char → Nat → Feedback
  | [], _ => []
  | c :: rest, i => (c, Status.correct, i) :: allCorrect rest (i + 1)

/-- Pass 1 over the zipped guess/secret positions: decrement the secret
letter count at every exact match.  Counts are integers, as Python's dict
arithmetic does not saturate. -/
def pass1 : List (Char × Char) → (Char → Int) → (Char → Int)
  | [], m => m
  | (g, s) :: rest, m =>
    if g = s then pass1 rest (fun c => if c = g then m c - 1 else m c)
    else pass1 rest m

/-- Pass 2 over the zipped guess/secret positions, starting at position
`i` with remaining counts `m`: exact matches were marked `correct` in
pass 1; an unmarked position is `present` when the guessed letter is a
key of the secret's count dict (i.e. occurs in the secret) with remaining
count `> 0`, else `absent`. -/
def pass2 (sec : List Char) : List (Char × Char) → (Char → Int) → Nat → Feedback
  | [], _, _ => []
  | (g, s) :: rest, m, i =>
    if g = s then (g, Status.correct, i) :: pass2 sec rest m (i + 1)
    else if sec.contains g ∧ 0 < m g then
      (g, Status.present, i) ::
        pass2 sec rest (fun c => if c = g then m c - 1 else m c) (i + 1)
    else (g, Status.absent, i) :: pass2 sec rest m (i + 1)

/-- Function `check_guess(guess, secret_word)` (solver.py lines 67-110), returning
the `(is_correct, structured_feedback)` pair; the length-mismatch branch
returns the sentinel error instead of feedback. -/
def check_guess (guess secret_word : List Char) :
    Except String (Bool × Feedback) :=
  if guess.length ≠ WORD_LENGTH ∨ secret_word.length ≠ WORD_LENGTH then
    Except.error "Internal error: Invalid length"
  else if guess = secret_word then
    Except.ok (true, allCorrect guess 0)
  else
    let m0 : Char → Int := fun c => (secret_word.count c : Int)
    let m1 := pass1 (guess.zip secret_word) m0
    Except.ok (false, pass2 secret_word (guess.zip secret_word) m1 0)

/-! ## Counting helpers over feedback lists -/

/-- Does entry `e` carry letter `c` with a positive (Correct/Present)
status?  Used both by the `is_globally_absent` scan of
`_update_constraints` and to count positive markings. -/
def isPosFor (c : Char) (e : Entry) : Bool :=
  e.1 = c && (e.2.1 = Status.correct || e.2.1 = Status.present)

/-- Number of Correct/Present markings of letter `c` in a feedback. -/
def posCountFb (c : Char) (fb : Feedback) : Nat :=
  fb.countP (isPosFor c)

/-- Number of Absent markings of letter `c` in a feedback. -/
def absCountFb (c : Char) (fb : Feedback) : Nat :=
  fb.countP (fun e => e.1 = c && e.2.1 = Status.absent)

/-- Number of entries carrying letter `c` (any status). -/
def letterCountFb (c : Char) (fb : Feedback) : Nat :=
  fb.countP (fun e => e.1 = c)

/-- Number of Correct markings of letter `c`. -/
def corrCountFb (c : Char) (fb : Feedback) : Nat :=
  fb.countP (fun e => e.1 = c && e.2.1 = Status.correct)

/-- Number of Present markings of letter `c`. -/
def presCountFb (c : Char) (fb : Feedback) : Nat :=
  fb.countP (fun e => e.1 = c && e.2.1 = Status.present)

/-- Pairs of the zipped guess/secret that are exact matches on letter `c`
(the positions pass 1 marks `correct` with letter `c`). -/
def corrPairs (c : Char) (ps : List (Char × Char)) : Nat :=
  ps.countP (fun p => p.1 = c && p.2 = c)

/-! ## `TermoSolverCSP` state (solver.py lines 112-234)

Python's word sets (`all_valid_words`, `possible_words`) are modelled as
lists; the set comprehension of `add_feedback` becomes `List.filter`. -/

/-- The mutable state of a `TermoSolverCSP` instance. -/
structure SolverState where
  all_valid_words : List (List Char)
  possible_words : List (List Char)
  word_length : Nat
  guesses_history : List (List Char)
  feedback_history : List Feedback
  green_letters : List (Nat × Char)          -- dict {index: letter}
  yellow_letters : List (Nat × List Char)    -- dict {index: set(letters)}
  gray_letters : List Char                   -- set(letters)
  min_letter_counts : List (Char × Nat)      -- dict {letter: count}
deriving Repr

/-- Constructor `TermoSolverCSP.__init__(valid_words, word_length)`. -/
def initSolver (valid_words : List (List Char)) (word_length : Nat) : SolverState :=
  { all_valid_words := valid_words
    possible_words := valid_words
    word_length := word_length
    guesses_history := []
    feedback_history := []
    green_letters := []
    yellow_letters := []
    gray_letters := []
    min_letter_counts := [] }

/-- The yellow-set update of a Correct entry (solver.py lines 137-138):
`if index in self.yellow_letters: self.yellow_letters[index].discard(letter)`. -/
def discardYellow (yellow : List (Nat × List Char)) (index : Nat)
    (letter : Char) : List (Nat × List Char) :=
  match lookup yellow index with
  | some s => dinsert yellow index (sdiscard s letter)
  | none => yellow

/-- The entry loop of `_update_constraints` (solver.py lines 134-155),
threading the green / yellow / gray accumulators and the
`current_positive_counts` dict through the feedback entries.  The
`is_globally_absent` scan inspects the whole feedback `fb_all`, not just
the remaining entries. -/
def processEntries (fb_all : Feedback) :
    Feedback → List (Nat × Char) → List (Nat × List Char) → List Char →
      List (Char × Nat) →
      List (Nat × Char) × List (Nat × List Char) × List Char × List (Char × Nat)
  | [], green, yellow, gray, pos => (green, yellow, gray, pos)
  | (letter, status, index) :: rest, green, yellow, gray, pos =>
    match status with
    | Status.correct =>
      processEntries fb_all rest (dinsert green index letter)
        (discardYellow yellow index letter) gray (bumpCount pos letter)
    | Status.present =>
      processEntries fb_all rest green
        (dinsert yellow index (sadd (lookupD yellow index []) letter)) gray
        (bumpCount pos letter)
    | Status.absent =>
      let globallyAbsent := !(fb_all.any (isPosFor letter))
      processEntries fb_all rest green yellow
        (if globallyAbsent then sadd gray letter else gray) pos

/-- The min-count update loop of `_update_constraints` (lines 157-159):
`min_letter_counts[letter] = max(min_letter_counts.get(letter, 0), count)`
for every `(letter, count)` of `current_positive_counts`. -/
def applyMinCounts (minC : List (Char × Nat)) :
    List (Char × Nat) → List (Char × Nat)
  | [] => minC
  | (c, k) :: rest =>
    applyMinCounts (dinsert minC c (Nat.max (lookupD minC c 0) k)) rest

/-- Method `_update_constraints(guess, structured_feedback)` (lines 127-168).
The `current_guess_counts` dict computed at the top of the Python
function is never read afterwards, and the final loop over absent
entries is literally `pass`; both are omitted. -/
def update_constraints (st : SolverState) (_guess : List Char) (fb : Feedback) :
    SolverState :=
  let r := processEntries fb fb st.green_letters st.yellow_letters
    st.gray_letters []
  { st with
    green_letters := r.1
    yellow_letters := r.2.1
    gray_letters := r.2.2.1
    min_letter_counts := applyMinCounts st.min_letter_counts r.2.2.2 }

/-! ## `_is_consistent` (solver.py lines 171-225) -/

/-- Green constraints (lines 177-179): every `(index, letter)` of
`green_letters` must have `word[index] == letter`; an out-of-range index
fails the check (`index >= len(word)` returns `False`). -/
def greenOk (green : List (Nat × Char)) (word : List Char) : Bool :=
  green.all (fun p =>
    match word.get? p.1 with
    | some c => c = p.2
    | none => false)

/-- Yellow constraints (lines 182-186): the word must not carry a
yellow-excluded letter at its position; out-of-range indices are skipped
(`continue`). -/
def yellowOk (yellow : List (Nat × List Char)) (word : List Char) : Bool :=
  yellow.all (fun p =>
    match word.get? p.1 with
    | some c => !(p.2.contains c)
    | none => true)

/-- Gray constraints (lines 190-193): a gray letter occurring in the word
rejects it unless the letter is also a key of `min_letter_counts`. -/
def grayOk (gray : List Char) (minC : List (Char × Nat)) (word : List Char) :
    Bool :=
  gray.all (fun c => !(word.contains c && (lookup minC c).isNone))

/-- Minimum-count constraints (lines 196-199). -/
def minOk (minC : List (Char × Nat)) (word : List Char) : Bool :=
  minC.all (fun p => p.2 ≤ word.count p.1)

/-- The per-record `(letter, status)` pairs scanned by the exact-count
loop (lines 208-215): Python reads `guess[i]` and
`structured_feedback[i][1]` for `i in range(word_length)` — note the
letter comes from the guess and the status from the feedback.  The
Python loop raises `IndexError` when either list is shorter than
`word_length`; the embedding covers records of length `≥ word_length`
(the game always records exactly `word_length`), truncating longer ones
exactly as `range(word_length)` does. -/
def recordPairs (wl : Nat) (guess : List Char) (fb : Feedback) :
    List (Char × Status) :=
  (guess.zip (fb.map (fun e => e.2.1))).take wl

/-- Dict `positive_counts` of one history record (lines 212-213). -/
def posCountR (c : Char) (pairs : List (Char × Status)) : Nat :=
  pairs.countP (fun p => p.1 = c &&
    (p.2 = Status.correct || p.2 = Status.present))

/-- Dict `has_gray` of one history record (lines 214-215). -/
def hasGrayR (c : Char) (pairs : List (Char × Status)) : Bool :=
  pairs.any (fun p => p.1 = c && p.2 = Status.absent)

/-- The exact-count check of one history record (lines 217-223): for
every letter of the guess with at least one gray occurrence that also
occurs in the candidate word, the word's occurrence count must equal the
record's positive count.  The Python loop ranges over the distinct keys
of `guess_counts`; quantifying over all pairs tests the same set of
letters. -/
def exactOkRecord (wl : Nat) (word guess : List Char) (fb : Feedback) : Bool :=
  let pairs := recordPairs wl guess fb
  pairs.all (fun p =>
    !(hasGrayR p.1 pairs && word.contains p.1) ||
      (word.count p.1 = posCountR p.1 pairs))

/-- The maximum-count scan over the whole history
(lines 204-223, `zip(self.guesses_history, self.feedback_history)`). -/
def exactOk (wl : Nat) (word : List Char) (gs : List (List Char))
    (fbs : List Feedback) : Bool :=
  (gs.zip fbs).all (fun r => exactOkRecord wl word r.1 r.2)

/-- Method `_is_consistent(word)` (lines 171-225).  The Python function
short-circuits with early `return False`; the Boolean conjunction below
computes the same value. -/
def is_consistent (st : SolverState) (word : List Char) : Bool :=
  greenOk st.green_letters word &&
  yellowOk st.yellow_letters word &&
  grayOk st.gray_letters st.min_letter_counts word &&
  minOk st.min_letter_counts word &&
  exactOk st.word_length word st.guesses_history st.feedback_history

/-- Method `add_feedback(guess, structured_feedback)` (lines 228-234): append to
the histories, update the constraints, then filter `possible_words`
against the fully updated state. -/
def add_feedback (st : SolverState) (guess : List Char) (fb : Feedback) :
    SolverState :=
  let st1 := { st with
    guesses_history := st.guesses_history ++ [guess]
    feedback_history := st.feedback_history ++ [fb] }
  let st2 := update_constraints st1 guess fb
  { st2 with
    possible_words := st2.possible_words.filter (fun w => is_consistent st2 w) }

/-- A sequence of `add_feedback` calls, oldest first. -/
def run_updates (st : SolverState) : List (List Char × Feedback) → SolverState
  | [] => st
  | (g, fb) :: rest => run_updates (add_feedback st g fb) rest

/-! ## `get_next_guess` (solver.py lines 236-279)

`random.choice` on the full corpus and on `possible_words` and the
OR-Tools CP-SAT solve are external, non-deterministic calls; they are
modelled as injected selectors `choiceAll` / `choicePoss` and `csp`
(the CP-SAT call returns one of the allowed tuples, or `none` when
infeasible).  The `print` calls are modelled as a returned message log;
dynamic parts of the messages are elided. -/

/-- The messages `get_next_guess` can print, with their source strings. -/
def emptyPossibleMsg : String := "Error: No possible words remaining! Check secret word."

/-- Message of the empty `allowed_tuples` branch (line 261). -/
def emptyAllowedMsg : String := "Error: allowed_tuples set is empty for OR-Tools."

/-- Message of the successful OR-Tools branch (line 275, word elided). -/
def cspDebugMsg : String := "Debug: OR-Tools suggested:"

/-- Message of the infeasible OR-Tools branch (line 278, status elided). -/
def cspWarnMsg : String := "Warning: OR-Tools did not find a consistent solution. Using random choice."

/-- Method `get_next_guess(attempt_number)` (lines 236-279), returning the
printed message log together with the chosen word. -/
def get_next_guess (choiceAll choicePoss : List (List Char) → List Char)
    (csp : List (List Char) → Option (List Char))
    (st : SolverState) (attempt_number : Nat) : List String × List Char :=
  if attempt_number = 0 then ([], ['a', 'c', 'e', 'l', 'o'])
  else if attempt_number = 1 then ([], ['s', 'u', 'm', 'i', 'r'])
  else if st.possible_words = [] then
    ([emptyPossibleMsg], choiceAll st.all_valid_words)
  else if st.possible_words.length = 1 then ([], st.possible_words.headD [])
  else
    let allowed := st.possible_words.filter (fun w => w.length = st.word_length)
    if allowed = [] then ([emptyAllowedMsg], choicePoss st.possible_words)
    else
      match csp allowed with
      | some w => ([cspDebugMsg], w)
      | none => ([cspWarnMsg], choicePoss st.possible_words)

/-! ## Faithfulness of an accumulated state to a secret

The invariant tying a `SolverState` built from genuine feedback to the
secret it was computed against. -/

/-- The semantic facts that a single entry of a genuine feedback for
secret `s` carries: a Correct entry pins the secret letter at its index,
a Present entry excludes it there. -/
def EntryFact (s : List Char) (e : Entry) : Prop :=
  (e.2.1 = Status.correct → s.get? e.2.2 = some e.1) ∧
  (e.2.1 = Status.present → s.get? e.2.2 ≠ some e.1)

/-- Faithfulness of a solver state to secret `s`: every green pin agrees
with `s`, every yellow exclusion differs from `s` at its position, every
gray letter is absent from `s`, every min count is a true lower bound,
and the recorded history is genuine `check_guess` output against `s`. -/
def ModelFaithful (s : List Char) (st : SolverState) : Prop :=
  (∀ p ∈ st.green_letters, s.get? p.1 = some p.2) ∧
  (∀ p ∈ st.yellow_letters, ∀ c ∈ p.2, s.get? p.1 ≠ some c) ∧
  (∀ c ∈ st.gray_letters, s.count c = 0) ∧
  (∀ p ∈ st.min_letter_counts, p.2 ≤ s.count p.1) ∧
  (∀ r ∈ st.guesses_history.zip st.feedback_history,
    ∃ b, check_guess r.1 s = Except.ok (b, r.2)) ∧
  st.guesses_history.length = st.feedback_history.length ∧
  st.word_length = WORD_LENGTH

/-! ## Association-list and set helper lemmas -/

theorem lookup_dinsert_self {α β : Type} [DecidableEq α]
    (d : List (α × β)) (k : α) (v : β) : lookup (dinsert d k v) k = some v := by
  induction d with
  | nil => simp [dinsert, lookup]
  | cons p rest ih =>
    obtain ⟨a, b⟩ := p
    by_cases h : a = k
    · simp [dinsert, h, lookup]
    · simp [dinsert, h, lookup, ih]

theorem lookup_dinsert_ne {α β : Type} [DecidableEq α]
    (d : List (α × β)) (k : α) (v : β) (c : α) (h : c ≠ k) :
    lookup (dinsert d k v) c = lookup d c := by
  induction d with
  | nil =>
    simp only [dinsert, lookup]
    rw [if_neg (fun hh => h hh.symm)]
  | cons p rest ih =>
    obtain ⟨a, b⟩ := p
    by_cases hak : a = k
    · subst hak
      simp only [dinsert, if_pos rfl, lookup]
      rw [if_neg (fun hh => h hh.symm), if_neg (fun hh => h hh.symm)]
    · by_cases hac : a = c
      · subst hac
        simp [dinsert, if_neg hak, lookup]
      · simp only [dinsert, if_neg hak, lookup, if_neg hac, ih]

theorem mem_dinsert {α β : Type} [DecidableEq α]
    {p : α × β} {d : List (α × β)} {k : α} {v : β}
    (h : p ∈ dinsert d k v) : p ∈ d ∨ p = (k, v) := by
  induction d with
  | nil => simpa [dinsert] using h
  | cons q rest ih =>
    obtain ⟨a, b⟩ := q
    by_cases hak : a = k
    · subst hak
      rcases (by simpa [dinsert] using h : p = (a, v) ∨ p ∈ rest) with h1 | h1
      · exact Or.inr h1
      · exact Or.inl (List.mem_cons_of_mem _ h1)
    · rcases (by simpa [dinsert, hak] using h : p = (a, b) ∨ p ∈ dinsert rest k v)
        with h1 | h1
      · exact Or.inl (by simp [h1])
      · rcases ih h1 with h2 | h2
        · exact Or.inl (List.mem_cons_of_mem _ h2)
        · exact Or.inr h2

theorem lookup_mem {α β : Type} [DecidableEq α]
    {d : List (α × β)} {k : α} {v : β} (h : lookup d k = some v) : (k, v) ∈ d := by
  induction d with
  | nil => simp [lookup] at h
  | cons q rest ih =>
    obtain ⟨a, b⟩ := q
    by_cases hak : a = k
    · subst hak
      simp [lookup] at h
      simp [h]
    · simp [lookup, hak] at h
      exact List.mem_cons_of_mem _ (ih h)

theorem mem_sadd_iff {α : Type} [DecidableEq α] {s : List α} {a c : α} :
    c ∈ sadd s a ↔ c ∈ s ∨ c = a := by
  unfold sadd
  by_cases h : a ∈ s
  · simp only [if_pos h]
    constructor
    · exact Or.inl
    · rintro (h1 | rfl) <;> [exact h1; exact h]
  · simp [if_neg h]

theorem mem_sdiscard_iff {α : Type} [DecidableEq α] {s : List α} {a c : α} :
    c ∈ sdiscard s a ↔ c ∈ s ∧ c ≠ a := by
  simp [sdiscard]

/-- Preservation of an entry-wise property through a dict assignment. -/
theorem dinsert_forall {α β : Type} [DecidableEq α] {P : α × β → Prop}
    {d : List (α × β)} {k : α} {v : β}
    (hd : ∀ p ∈ d, P p) (hkv : P (k, v)) : ∀ p ∈ dinsert d k v, P p := by
  intro p hp
  rcases mem_dinsert hp with h | h
  · exact hd p h
  · rw [h]; exact hkv

/-- Keys of a dict stay duplicate-free under assignment. -/
theorem keys_nodup_dinsert {α β : Type} [DecidableEq α]
    {d : List (α × β)} {k : α} {v : β} (h : (d.map Prod.fst).Nodup) :
    ((dinsert d k v).map Prod.fst).Nodup := by
  induction d with
  | nil => simp [dinsert]
  | cons q rest ih =>
    obtain ⟨a, b⟩ := q
    simp only [List.map_cons, List.nodup_cons] at h
    by_cases hak : a = k
    · subst hak
      simpa [dinsert, List.nodup_cons] using h
    · have hmem : ∀ x ∈ (dinsert rest k v).map Prod.fst,
          x ∈ rest.map Prod.fst ∨ x = k := by
        intro x hx
        simp only [List.mem_map] at hx
        obtain ⟨p, hp, hpx⟩ := hx
        rcases mem_dinsert hp with h1 | h1
        · exact Or.inl (List.mem_map.mpr ⟨p, h1, hpx⟩)
        · exact Or.inr (by rw [← hpx, h1])
      simp only [dinsert, if_neg hak, List.map_cons, List.nodup_cons]
      refine ⟨fun hx => ?_, ih h.2⟩
      rcases hmem _ hx with h1 | h1
      · exact h.1 h1
      · exact hak h1

/-- In a duplicate-free dict, every entry is found by `lookup`. -/
theorem lookup_of_mem_keys_nodup {α β : Type} [DecidableEq α]
    {d : List (α × β)} (h : (d.map Prod.fst).Nodup) {p : α × β} (hp : p ∈ d) :
    lookup d p.1 = some p.2 := by
  induction d with
  | nil => simp at hp
  | cons q rest ih =>
    obtain ⟨a, b⟩ := q
    simp only [List.map_cons, List.nodup_cons] at h
    rcases List.mem_cons.mp hp with h1 | h1
    · rw [h1]; simp [lookup]
    · have hne : a ≠ p.1 := by
        intro hc
        exact h.1 (List.mem_map.mpr ⟨p, h1, hc.symm⟩)
      simp [lookup, hne, ih h.2 h1]

/-! ## Claim theorems: selector openings, length mismatch, monotone shrink -/

/-- C9: `get_next_guess` at attempt 0 returns the fixed probe `"acelo"`
and at attempt 1 the fixed probe `"sumir"`, for every solver state and
every injected random/CSP selector — the openings do not depend on the
corpus, the candidate set, the constraints or the history. -/
theorem c9_opening_probes :
    ∀ (cA cP : List (List Char) → List Char)
      (csp : List (List Char) → Option (List Char)) (st : SolverState),
      get_next_guess cA cP csp st 0 = ([], ['a', 'c', 'e', 'l', 'o']) ∧
      get_next_guess cA cP csp st 1 = ([], ['s', 'u', 'm', 'i', 'r']) := by
  intro cA cP csp st
  exact ⟨rfl, rfl⟩

/-- C5: whenever the guess or the secret is not of length 5,
`check_guess` returns the length-mismatch error (and hence no feedback
at all — nothing is truncated or padded). -/
theorem c5_length_mismatch (g s : List Char)
    (h : g.length ≠ WORD_LENGTH ∨ s.length ≠ WORD_LENGTH) :
    check_guess g s = Except.error "Internal error: Invalid length" := by
  unfold check_guess
  rw [if_pos h]

/-- Witness for C5 at a concrete short guess. -/
theorem c5_length_mismatch_witness :
    (['a', 'b', 'c', 'd'].length ≠ WORD_LENGTH ∨
      ['p', 'o', 'r', 't', 'a'].length ≠ WORD_LENGTH) ∧
    check_guess ['a', 'b', 'c', 'd'] ['p', 'o', 'r', 't', 'a'] =
      Except.error "Internal error: Invalid length" :=
  ⟨by decide, c5_length_mismatch _ _ (by decide)⟩

/-- C6: `add_feedback` only filters the candidate set: the resulting
`possible_words` is a sublist-subset of the previous one, so its size
never increases. -/
theorem c6_monotone_shrink :
    ∀ (st : SolverState) (g : List Char) (fb : Feedback),
      (add_feedback st g fb).possible_words ⊆ st.possible_words ∧
      (add_feedback st g fb).possible_words.length ≤ st.possible_words.length := by
  intro st g fb
  constructor
  · intro w hw
    simp only [add_feedback, update_constraints] at hw
    exact (List.mem_filter.mp hw).1
  · simp only [add_feedback, update_constraints]
    exact List.length_filter_le _ _

/-! ## Structural lemmas about `check_guess` feedback -/

theorem allCorrect_length (g : List Char) (i : Nat) :
    (allCorrect g i).length = g.length := by
  induction g generalizing i with
  | nil => rfl
  | cons c rest ih => simp [allCorrect, ih]

theorem pass2_length (sec : List Char) (ps : List (Char × Char))
    (m : Char → Int) (i : Nat) : (pass2 sec ps m i).length = ps.length := by
  induction ps generalizing m i with
  | nil => rfl
  | cons p rest ih =>
    obtain ⟨g, s⟩ := p
    simp only [pass2]
    by_cases hgs : g = s
    · rw [if_pos hgs]; simp [ih]
    · rw [if_neg hgs]
      by_cases hc : sec.contains g ∧ 0 < m g
      · rw [if_pos hc]; simp [ih]
      · rw [if_neg hc]; simp [ih]

theorem allCorrect_get? (g : List Char) (i j : Nat) (c : Char)
    (h : g.get? j = some c) :
    (allCorrect g i).get? j = some (c, Status.correct, i + j) := by
  induction g generalizing i j with
  | nil => simp at h
  | cons x rest ih =>
    cases j with
    | zero => simp_all [allCorrect]
    | succ j =>
      simp only [List.get?] at h
      have := ih (i + 1) j h
      simpa [allCorrect, Nat.add_assoc, Nat.add_comm 1 j] using this

theorem pass2_get? (sec : List Char) (ps : List (Char × Char))
    (m : Char → Int) (i j : Nat) (p : Char × Char) (h : ps.get? j = some p) :
    ∃ st : Status, (pass2 sec ps m i).get? j = some (p.1, st, i + j) ∧
      (p.1 = p.2 ↔ st = Status.correct) := by
  induction ps generalizing m i j with
  | nil => simp at h
  | cons q rest ih =>
    obtain ⟨g, s⟩ := q
    cases j with
    | zero =>
      simp only [List.get?] at h
      cases h
      simp only [pass2]
      by_cases hgs : g = s
      · rw [if_pos hgs]
        exact ⟨Status.correct, rfl, by simp [hgs]⟩
      · rw [if_neg hgs]
        by_cases hc : sec.contains g ∧ 0 < m g
        · rw [if_pos hc]
          exact ⟨Status.present, rfl, by simp [hgs]⟩
        · rw [if_neg hc]
          exact ⟨Status.absent, rfl, by simp [hgs]⟩
    | succ j =>
      simp only [List.get?] at h
      simp only [pass2]
      by_cases hgs : g = s
      · rw [if_pos hgs]
        obtain ⟨st, h1, h2⟩ := ih m (i + 1) j h
        refine ⟨st, ?_, h2⟩
        simpa [Nat.add_assoc, Nat.add_comm 1 j] using h1
      · rw [if_neg hgs]
        by_cases hc : sec.contains g ∧ 0 < m g
        · rw [if_pos hc]
          obtain ⟨st, h1, h2⟩ :=
            ih (fun c => if c = g then m c - 1 else m c) (i + 1) j h
          refine ⟨st, ?_, h2⟩
          simpa [Nat.add_assoc, Nat.add_comm 1 j] using h1
        · rw [if_neg hc]
          obtain ⟨st, h1, h2⟩ := ih m (i + 1) j h
          refine ⟨st, ?_, h2⟩
          simpa [Nat.add_assoc, Nat.add_comm 1 j] using h1

theorem allCorrect_letters (g : List Char) (i : Nat) :
    (allCorrect g i).map (fun e => e.1) = g := by
  induction g generalizing i with
  | nil => rfl
  | cons c rest ih => simp [allCorrect, ih]

theorem pass2_letters (sec : List Char) (ps : List (Char × Char))
    (m : Char → Int) (i : Nat) :
    (pass2 sec ps m i).map (fun e => e.1) = ps.map Prod.fst := by
  induction ps generalizing m i with
  | nil => rfl
  | cons p rest ih =>
    obtain ⟨g, s⟩ := p
    simp only [pass2]
    by_cases hgs : g = s
    · rw [if_pos hgs]; simp [ih]
    · rw [if_neg hgs]
      by_cases hc : sec.contains g ∧ 0 < m g
      · rw [if_pos hc]; simp [ih]
      · rw [if_neg hc]; simp [ih]

theorem allCorrect_status {g : List Char} {i : Nat} {e : Entry}
    (h : e ∈ allCorrect g i) : e.2.1 = Status.correct := by
  induction g generalizing i with
  | nil => simp [allCorrect] at h
  | cons c rest ih =>
    rcases List.mem_cons.mp h with h1 | h1
    · rw [h1]
    · exact ih h1

/-! ## Counting lemmas about the two-pass feedback algorithm -/

theorem corrPairs_cons (c g s : Char) (rest : List (Char × Char)) :
    corrPairs c ((g, s) :: rest) =
      corrPairs c rest + (if g = c ∧ s = c then 1 else 0) := by
  by_cases h1 : g = c
  · by_cases h2 : s = c
    · simp [corrPairs, List.countP_cons, h1, h2]
    · simp [corrPairs, List.countP_cons, h1, h2]
  · simp [corrPairs, List.countP_cons, h1]

theorem posCountFb_cons (c l : Char) (st : Status) (k : Nat) (rest : Feedback) :
    posCountFb c ((l, st, k) :: rest) =
      posCountFb c rest +
        (if l = c ∧ (st = Status.correct ∨ st = Status.present) then 1 else 0) := by
  by_cases h1 : l = c
  · cases st <;> simp [posCountFb, isPosFor, List.countP_cons, h1]
  · simp [posCountFb, isPosFor, List.countP_cons, h1]

theorem corrCountFb_cons (c l : Char) (st : Status) (k : Nat) (rest : Feedback) :
    corrCountFb c ((l, st, k) :: rest) =
      corrCountFb c rest + (if l = c ∧ st = Status.correct then 1 else 0) := by
  by_cases h1 : l = c
  · cases st <;> simp [corrCountFb, List.countP_cons, h1]
  · simp [corrCountFb, List.countP_cons, h1]

theorem presCountFb_cons (c l : Char) (st : Status) (k : Nat) (rest : Feedback) :
    presCountFb c ((l, st, k) :: rest) =
      presCountFb c rest + (if l = c ∧ st = Status.present then 1 else 0) := by
  by_cases h1 : l = c
  · cases st <;> simp [presCountFb, List.countP_cons, h1]
  · simp [presCountFb, List.countP_cons, h1]

theorem absCountFb_cons (c l : Char) (st : Status) (k : Nat) (rest : Feedback) :
    absCountFb c ((l, st, k) :: rest) =
      absCountFb c rest + (if l = c ∧ st = Status.absent then 1 else 0) := by
  by_cases h1 : l = c
  · cases st <;> simp [absCountFb, List.countP_cons, h1]
  · simp [absCountFb, List.countP_cons, h1]

theorem letterCountFb_cons (c l : Char) (st : Status) (k : Nat) (rest : Feedback) :
    letterCountFb c ((l, st, k) :: rest) =
      letterCountFb c rest + (if l = c then 1 else 0) := by
  by_cases h1 : l = c <;> simp [letterCountFb, List.countP_cons, h1]

theorem pass1_eval (ps : List (Char × Char)) (m : Char → Int) (c : Char) :
    pass1 ps m c = m c - corrPairs c ps := by
  induction ps generalizing m with
  | nil => simp [pass1, corrPairs]
  | cons p rest ih =>
    obtain ⟨g, s⟩ := p
    simp only [pass1]
    rw [corrPairs_cons]
    by_cases hgs : g = s
    · rw [if_pos hgs, ih]
      by_cases hgc : g = c
      · have hsc : s = c := hgs.symm.trans hgc
        rw [if_pos hgc.symm, if_pos ⟨hgc, hsc⟩]
        push_cast
        ring
      · rw [if_neg (fun h => hgc h.symm), if_neg (fun h => hgc h.1)]
        simp
    · rw [if_neg hgs, ih,
        if_neg (fun h : g = c ∧ s = c => hgs (h.1.trans h.2.symm))]
      simp

theorem pass2_corr (sec : List Char) (c : Char) (ps : List (Char × Char))
    (m : Char → Int) (i : Nat) :
    corrCountFb c (pass2 sec ps m i) = corrPairs c ps := by
  induction ps generalizing m i with
  | nil => rfl
  | cons p rest ih =>
    obtain ⟨g, s⟩ := p
    simp only [pass2]
    rw [corrPairs_cons]
    by_cases hgs : g = s
    · rw [if_pos hgs, corrCountFb_cons, ih m (i + 1)]
      by_cases hgc : g = c
      · have hsc : s = c := hgs.symm.trans hgc
        rw [if_pos ⟨hgc, rfl⟩, if_pos ⟨hgc, hsc⟩]
      · rw [if_neg (fun h => hgc h.1), if_neg (fun h => hgc h.1)]
    · rw [if_neg hgs,
        if_neg (fun h : g = c ∧ s = c => hgs (h.1.trans h.2.symm))]
      by_cases hc : sec.contains g ∧ 0 < m g
      · rw [if_pos hc, corrCountFb_cons,
          ih (fun c' => if c' = g then m c' - 1 else m c') (i + 1),
          if_neg (fun h => by exact absurd h.2 (by simp))]
      · rw [if_neg hc, corrCountFb_cons, ih m (i + 1),
          if_neg (fun h => by exact absurd h.2 (by simp))]

theorem pass2_pres_le (sec : List Char) (c : Char) (ps : List (Char × Char))
    (m : Char → Int) (i : Nat) :
    (presCountFb c (pass2 sec ps m i) : Int) ≤ max (m c) 0 := by
  induction ps generalizing m i with
  | nil => simp [pass2, presCountFb]
  | cons p rest ih =>
    obtain ⟨g, s⟩ := p
    simp only [pass2]
    by_cases hgs : g = s
    · rw [if_pos hgs, presCountFb_cons,
        if_neg (fun h => by exact absurd h.2 (by simp))]
      simpa using ih m (i + 1)
    · rw [if_neg hgs]
      by_cases hc : sec.contains g ∧ 0 < m g
      · rw [if_pos hc, presCountFb_cons]
        by_cases hgc : g = c
        · rw [if_pos ⟨hgc, rfl⟩]
          have ihg : (presCountFb c (pass2 sec rest
              (fun c' => if c' = g then m c' - 1 else m c') (i + 1)) : Int) ≤
              max (m c - 1) 0 := by
            have h0 := ih (fun c' => if c' = g then m c' - 1 else m c') (i + 1)
            rwa [show (if c = g then m c - 1 else m c) = m c - 1 from
              if_pos hgc.symm] at h0
          have hm : 0 < m c := hgc ▸ hc.2
          rw [max_eq_left (by omega)] at ihg
          rw [max_eq_left (by omega)]
          push_cast at ihg ⊢
          omega
        · rw [if_neg (fun h => hgc h.1)]
          have ihg : (presCountFb c (pass2 sec rest
              (fun c' => if c' = g then m c' - 1 else m c') (i + 1)) : Int) ≤
              max (m c) 0 := by
            have h0 := ih (fun c' => if c' = g then m c' - 1 else m c') (i + 1)
            rwa [show (if c = g then m c - 1 else m c) = m c from
              if_neg (fun h => hgc h.symm)] at h0
          simpa using ihg
      · rw [if_neg hc, presCountFb_cons,
          if_neg (fun h => by exact absurd h.2 (by simp))]
        simpa using ih m (i + 1)

theorem pass2_pres_ge (sec : List Char) (c : Char) (ps : List (Char × Char))
    (m : Char → Int) (i j : Nat)
    (habs : (c, Status.absent, j) ∈ pass2 sec ps m i)
    (hsec : sec.contains c = true) :
    m c ≤ (presCountFb c (pass2 sec ps m i) : Int) := by
  induction ps generalizing m i with
  | nil => simp [pass2] at habs
  | cons p rest ih =>
    obtain ⟨g, s⟩ := p
    simp only [pass2] at habs ⊢
    by_cases hgs : g = s
    · rw [if_pos hgs] at habs ⊢
      rcases List.mem_cons.mp habs with h1 | h1
      · exact absurd (congrArg (fun e => e.2.1) h1).symm (by simp)
      · rw [presCountFb_cons, if_neg (fun h => by exact absurd h.2 (by simp))]
        simpa using ih m (i + 1) h1
    · rw [if_neg hgs] at habs ⊢
      by_cases hc : sec.contains g ∧ 0 < m g
      · rw [if_pos hc] at habs ⊢
        rcases List.mem_cons.mp habs with h1 | h1
        · exact absurd (congrArg (fun e => e.2.1) h1).symm (by simp)
        · rw [presCountFb_cons]
          by_cases hgc : g = c
          · rw [if_pos ⟨hgc, rfl⟩]
            have ihg : m c - 1 ≤ (presCountFb c (pass2 sec rest
                (fun c' => if c' = g then m c' - 1 else m c') (i + 1)) : Int) := by
              have h0 := ih (fun c' => if c' = g then m c' - 1 else m c')
                (i + 1) h1
              simpa [if_pos hgc.symm] using h0
            push_cast at ihg ⊢
            omega
          · rw [if_neg (fun h => hgc h.1)]
            have ihg : m c ≤ (presCountFb c (pass2 sec rest
                (fun c' => if c' = g then m c' - 1 else m c') (i + 1)) : Int) := by
              have h0 := ih (fun c' => if c' = g then m c' - 1 else m c')
                (i + 1) h1
              simpa [if_neg (fun h : c = g => hgc h.symm)] using h0
            simpa using ihg
      · rw [if_neg hc] at habs ⊢
        rcases List.mem_cons.mp habs with h1 | h1
        · have hgc : g = c := (congrArg (fun e => e.1) h1).symm
          subst hgc
          have hm : ¬(0 < m g) := fun hm => hc ⟨hsec, hm⟩
          have hnonneg : (0 : Int) ≤ (presCountFb g (pass2 sec rest m (i + 1)) : Int) := by
            positivity
          rw [presCountFb_cons, if_neg (fun h => by exact absurd h.2 (by simp))]
          push_cast
          omega
        · rw [presCountFb_cons, if_neg (fun h => by exact absurd h.2 (by simp))]
          simpa using ih m (i + 1) h1

/-- A positive marking is a correct or a present marking. -/
theorem posCount_split (c : Char) (fb : Feedback) :
    posCountFb c fb = corrCountFb c fb + presCountFb c fb := by
  induction fb with
  | nil => rfl
  | cons e rest ih =>
    obtain ⟨l, st, k⟩ := e
    rw [posCountFb_cons, corrCountFb_cons, presCountFb_cons, ih]
    by_cases h1 : l = c
    · cases st <;> simp [h1] <;> omega
    · simp [h1]

/-- Status trichotomy: the markings of letter `c` split into correct,
present and absent ones. -/
theorem letterCount_split (c : Char) (fb : Feedback) :
    letterCountFb c fb = corrCountFb c fb + presCountFb c fb + absCountFb c fb := by
  induction fb with
  | nil => rfl
  | cons e rest ih =>
    obtain ⟨l, st, k⟩ := e
    rw [letterCountFb_cons, corrCountFb_cons, presCountFb_cons, absCountFb_cons,
      ih]
    by_cases h1 : l = c
    · cases st <;> simp [h1] <;> omega
    · simp [h1]

/-- The total number of markings of letter `c` equals the number of
occurrences of `c` among the entry letters. -/
theorem letterCount_eq_count (c : Char) (fb : Feedback) :
    letterCountFb c fb = (fb.map (fun e => e.1)).count c := by
  induction fb with
  | nil => rfl
  | cons e rest ih =>
    obtain ⟨l, st, k⟩ := e
    rw [letterCountFb_cons, ih]
    by_cases h1 : l = c <;> simp [List.count_cons, h1]

theorem corrPairs_le_count (c : Char) (g s : List Char)
    (hlen : s.length ≤ g.length) : corrPairs c (g.zip s) ≤ s.count c := by
  have h1 : corrPairs c (g.zip s) ≤ ((g.zip s).map Prod.snd).count c := by
    unfold corrPairs
    rw [List.count, List.countP_map]
    exact List.countP_mono_left (fun p _ hp => by
      simp only [Bool.and_eq_true, decide_eq_true_eq] at hp
      simp [Function.comp, hp.2])
  calc corrPairs c (g.zip s) ≤ ((g.zip s).map Prod.snd).count c := h1
    _ ≤ s.count c := by rw [List.map_snd_zip g s hlen]

/-! ## Facts about genuine `check_guess` feedback -/

theorem check_guess_ok_cases {g s : List Char} {b : Bool} {fb : Feedback}
    (hg : g.length = WORD_LENGTH) (hs : s.length = WORD_LENGTH)
    (h : check_guess g s = Except.ok (b, fb)) :
    (g = s ∧ b = true ∧ fb = allCorrect g 0) ∨
    (g ≠ s ∧ b = false ∧
      fb = pass2 s (g.zip s)
        (pass1 (g.zip s) (fun c => (s.count c : Int))) 0) := by
  unfold check_guess at h
  rw [if_neg (by push_neg; exact ⟨hg, hs⟩)] at h
  by_cases heq : g = s
  · rw [if_pos heq] at h
    simp only [Except.ok.injEq, Prod.mk.injEq] at h
    exact Or.inl ⟨heq, h.1.symm, h.2.symm⟩
  · rw [if_neg heq] at h
    simp only [Except.ok.injEq, Prod.mk.injEq] at h
    exact Or.inr ⟨heq, h.1.symm, h.2.symm⟩

/-- Counting `posCountFb` over the all-correct feedback counts the guess letters. -/
theorem posCount_allCorrect (c : Char) (g : List Char) (i : Nat) :
    posCountFb c (allCorrect g i) = g.count c := by
  induction g generalizing i with
  | nil => rfl
  | cons x rest ih =>
    rw [allCorrect, posCountFb_cons, ih]
    by_cases hxc : x = c <;> simp [List.count_cons, hxc]

theorem check_letters {g s : List Char} {b : Bool} {fb : Feedback}
    (hg : g.length = WORD_LENGTH) (hs : s.length = WORD_LENGTH)
    (h : check_guess g s = Except.ok (b, fb)) :
    fb.map (fun e => e.1) = g := by
  rcases check_guess_ok_cases hg hs h with ⟨heq, hb, hfb⟩ | ⟨hne, hb, hfb⟩
  · rw [hfb]; exact allCorrect_letters g 0
  · rw [hfb, pass2_letters]
    exact List.map_fst_zip g s (by rw [hg, hs])

theorem check_length {g s : List Char} {b : Bool} {fb : Feedback}
    (hg : g.length = WORD_LENGTH) (hs : s.length = WORD_LENGTH)
    (h : check_guess g s = Except.ok (b, fb)) :
    fb.length = WORD_LENGTH := by
  have := check_letters hg hs h
  calc fb.length = (fb.map (fun e => e.1)).length := by simp
    _ = g.length := by rw [this]
    _ = WORD_LENGTH := hg

theorem zip_get? {α β : Type} (l1 : List α) (l2 : List β) (j : Nat)
    (p : α × β) (h : (l1.zip l2).get? j = some p) :
    l1.get? j = some p.1 ∧ l2.get? j = some p.2 := by
  induction l1 generalizing l2 j with
  | nil => simp [List.zip] at h
  | cons x r1 ih =>
    cases l2 with
    | nil => simp [List.zip] at h
    | cons y r2 =>
      cases j with
      | zero =>
        simp only [List.zip_cons_cons, List.get?] at h
        cases h
        exact ⟨rfl, rfl⟩
      | succ j =>
        simp only [List.zip_cons_cons, List.get?] at h ⊢
        exact ih r2 j h

/-- Per-position characterisation of genuine feedback: the entry at
position `j` records the guess letter at `j`, carries index `j`, and is
marked Correct exactly when the secret agrees there. -/
theorem check_entry {g s : List Char} {b : Bool} {fb : Feedback}
    (hg : g.length = WORD_LENGTH) (hs : s.length = WORD_LENGTH)
    (h : check_guess g s = Except.ok (b, fb))
    (j : Nat) (e : Entry) (he : fb.get? j = some e) :
    e.2.2 = j ∧ g.get? j = some e.1 ∧
      (e.2.1 = Status.correct ↔ s.get? j = some e.1) := by
  have hjlen : j < fb.length := List.get?_eq_some.mp he |>.1
  rcases check_guess_ok_cases hg hs h with ⟨heq, hb, hfb⟩ | ⟨hne, hb, hfb⟩
  · subst hfb
    have hjg : j < g.length := by rwa [allCorrect_length] at hjlen
    have hgg : g.get? j = some (g.get ⟨j, hjg⟩) := List.get?_eq_get hjg
    have := allCorrect_get? g 0 j (g.get ⟨j, hjg⟩) hgg
    rw [he] at this
    cases this
    refine ⟨by simp, hgg, ?_⟩
    simp only [true_iff]
    rw [← heq]
    exact hgg
  · subst hfb
    have hjz : j < (g.zip s).length := by rwa [pass2_length] at hjlen
    have hzz : (g.zip s).get? j = some ((g.zip s).get ⟨j, hjz⟩) :=
      List.get?_eq_get hjz
    obtain ⟨st, h1, h2⟩ := pass2_get? s (g.zip s)
      (pass1 (g.zip s) (fun c => (s.count c : Int))) 0 j _ hzz
    rw [he] at h1
    cases h1
    obtain ⟨hgj, hsj⟩ := zip_get? g s j _ hzz
    refine ⟨by simp, hgj, ?_⟩
    constructor
    · intro hst
      rw [hsj]
      exact congrArg some (h2.mpr hst).symm
    · intro hoth
      apply h2.mp
      rw [hsj] at hoth
      exact (Option.some.inj hoth).symm

/-- Positive markings of any letter never exceed its count in the secret. -/
theorem check_pos_le {g s : List Char} {b : Bool} {fb : Feedback}
    (hg : g.length = WORD_LENGTH) (hs : s.length = WORD_LENGTH)
    (h : check_guess g s = Except.ok (b, fb)) (c : Char) :
    posCountFb c fb ≤ s.count c := by
  rcases check_guess_ok_cases hg hs h with ⟨heq, hb, hfb⟩ | ⟨hne, hb, hfb⟩
  · subst heq
    rw [hfb, posCount_allCorrect]
  · subst hfb
    have hcp : corrPairs c (g.zip s) ≤ s.count c :=
      corrPairs_le_count c g s (by rw [hg, hs])
    have hple : (presCountFb c (pass2 s (g.zip s)
        (pass1 (g.zip s) (fun c => (s.count c : Int))) 0) : Int) ≤
        max ((s.count c : Int) - (corrPairs c (g.zip s) : Int)) 0 := by
      have h0 := pass2_pres_le s c (g.zip s)
        (pass1 (g.zip s) (fun c => (s.count c : Int))) 0
      rwa [pass1_eval] at h0
    rw [max_eq_left (by omega)] at hple
    rw [posCount_split, pass2_corr]
    omega

/-- If some occurrence of `c` is marked Absent, the positive markings of
`c` exactly exhaust its count in the secret. -/
theorem check_pos_eq_of_absent {g s : List Char} {b : Bool} {fb : Feedback}
    (hg : g.length = WORD_LENGTH) (hs : s.length = WORD_LENGTH)
    (h : check_guess g s = Except.ok (b, fb)) (c : Char) (j : Nat)
    (habs : (c, Status.absent, j) ∈ fb) :
    posCountFb c fb = s.count c := by
  have hle := check_pos_le hg hs h c
  rcases check_guess_ok_cases hg hs h with ⟨heq, hb, hfb⟩ | ⟨hne, hb, hfb⟩
  · rw [hfb] at habs
    exact absurd (allCorrect_status habs) (by simp)
  · subst hfb
    by_cases hsec : s.contains c = true
    · have hge := pass2_pres_ge s c (g.zip s)
        (pass1 (g.zip s) (fun c => (s.count c : Int))) 0 j habs hsec
      rw [pass1_eval] at hge
      have hle' := hle
      rw [posCount_split, pass2_corr] at hle' ⊢
      have : ((s.count c : Int) - (corrPairs c (g.zip s) : Int)) ≤
          (presCountFb c (pass2 s (g.zip s)
            (pass1 (g.zip s) (fun c => (s.count c : Int))) 0) : Int) := by
        simpa using hge
      omega
    · have hnot : c ∉ s := fun hm => hsec (List.elem_iff.mpr hm)
      have hzero : s.count c = 0 := List.count_eq_zero.mpr hnot
      omega

/-- C2: for a genuine length-5 feedback, the number of Correct+Present
markings of any letter `c` never exceeds the occurrences of `c` in the
secret, and every further occurrence of `c` in the guess is marked
Absent (positive plus absent markings account for all occurrences of `c`
in the guess). -/
theorem c2_duplicate_letters (g s : List Char) (b : Bool) (fb : Feedback)
    (hg : g.length = WORD_LENGTH) (hs : s.length = WORD_LENGTH)
    (h : check_guess g s = Except.ok (b, fb)) (c : Char) :
    posCountFb c fb ≤ s.count c ∧
    posCountFb c fb + absCountFb c fb = g.count c := by
  refine ⟨check_pos_le hg hs h c, ?_⟩
  have h1 := letterCount_split c fb
  have h2 := posCount_split c fb
  have h3 := letterCount_eq_count c fb
  rw [check_letters hg hs h] at h3
  omega

/-- Witness for C2 on the spec's duplicate-letter example
(guess `"sassy"`, secret `"glass"`, letter `'s'`). -/
theorem c2_duplicate_letters_witness :
    check_guess ['s', 'a', 's', 's', 'y'] ['g', 'l', 'a', 's', 's'] =
      Except.ok (false,
        [('s', Status.present, 0), ('a', Status.present, 1),
         ('s', Status.absent, 2), ('s', Status.correct, 3),
         ('y', Status.absent, 4)]) ∧
    (posCountFb 's'
        [('s', Status.present, 0), ('a', Status.present, 1),
         ('s', Status.absent, 2), ('s', Status.correct, 3),
         ('y', Status.absent, 4)] ≤ ['g', 'l', 'a', 's', 's'].count 's' ∧
      posCountFb 's'
        [('s', Status.present, 0), ('a', Status.present, 1),
         ('s', Status.absent, 2), ('s', Status.correct, 3),
         ('y', Status.absent, 4)] +
      absCountFb 's'
        [('s', Status.present, 0), ('a', Status.present, 1),
         ('s', Status.absent, 2), ('s', Status.correct, 3),
         ('y', Status.absent, 4)] = ['s', 'a', 's', 's', 'y'].count 's') :=
  ⟨by rfl,
    c2_duplicate_letters ['s', 'a', 's', 's', 'y'] ['g', 'l', 'a', 's', 's']
      false
      [('s', Status.present, 0), ('a', Status.present, 1),
       ('s', Status.absent, 2), ('s', Status.correct, 3),
       ('y', Status.absent, 4)]
      (by decide) (by decide) (by rfl) 's'⟩

/-- C10: genuine length-5 feedback is total and well-shaped — exactly 5
entries (no unfilled slot), and the entry at position `j` is the triple
`(guess[j], status, j)` with `status` one of the three letter statuses. -/
theorem c10_feedback_shape (g s : List Char) (b : Bool) (fb : Feedback)
    (hg : g.length = WORD_LENGTH) (hs : s.length = WORD_LENGTH)
    (h : check_guess g s = Except.ok (b, fb)) :
    fb.length = WORD_LENGTH ∧
    ∀ j e, fb.get? j = some e →
      e.2.2 = j ∧ g.get? j = some e.1 ∧
      (e.2.1 = Status.correct ∨ e.2.1 = Status.present ∨
        e.2.1 = Status.absent) := by
  refine ⟨check_length hg hs h, fun j e he => ?_⟩
  obtain ⟨h1, h2, _⟩ := check_entry hg hs h j e he
  refine ⟨h1, h2, ?_⟩
  cases e.2.1 <;> simp

/-- Witness for C10 at guess `"acelo"`, secret `"porta"`. -/
theorem c10_feedback_shape_witness :
    check_guess ['a', 'c', 'e', 'l', 'o'] ['p', 'o', 'r', 't', 'a'] =
      Except.ok (false,
        [('a', Status.present, 0), ('c', Status.absent, 1),
         ('e', Status.absent, 2), ('l', Status.absent, 3),
         ('o', Status.present, 4)]) ∧
    ([('a', Status.present, 0), ('c', Status.absent, 1),
      ('e', Status.absent, 2), ('l', Status.absent, 3),
      ('o', Status.present, 4)] : Feedback).length = WORD_LENGTH ∧
    ∀ j e,
      ([('a', Status.present, 0), ('c', Status.absent, 1),
        ('e', Status.absent, 2), ('l', Status.absent, 3),
        ('o', Status.present, 4)] : Feedback).get? j = some e →
      e.2.2 = j ∧ ['a', 'c', 'e', 'l', 'o'].get? j = some e.1 ∧
      (e.2.1 = Status.correct ∨ e.2.1 = Status.present ∨
        e.2.1 = Status.absent) :=
  ⟨by rfl,
    c10_feedback_shape ['a', 'c', 'e', 'l', 'o'] ['p', 'o', 'r', 't', 'a']
      false
      [('a', Status.present, 0), ('c', Status.absent, 1),
       ('e', Status.absent, 2), ('l', Status.absent, 3),
       ('o', Status.present, 4)]
      (by decide) (by decide) (by rfl)⟩

/-! ## Lemmas about the constraint-update primitives -/

theorem lookupD_bumpCount_self {α : Type} [DecidableEq α]
    (d : List (α × Nat)) (k : α) :
    lookupD (bumpCount d k) k 0 = lookupD d k 0 + 1 := by
  unfold bumpCount lookupD
  rw [lookup_dinsert_self]
  rfl

theorem lookupD_bumpCount_ne {α : Type} [DecidableEq α]
    (d : List (α × Nat)) (k c : α) (h : c ≠ k) :
    lookupD (bumpCount d k) c 0 = lookupD d c 0 := by
  unfold bumpCount lookupD
  rw [lookup_dinsert_ne _ _ _ _ h]

theorem bumpCount_values {α : Type} [DecidableEq α]
    {d : List (α × Nat)} {k : α} (h : ∀ p ∈ d, 1 ≤ p.2) :
    ∀ p ∈ bumpCount d k, 1 ≤ p.2 :=
  dinsert_forall h (by omega)

theorem bumpCount_keys_nodup {α : Type} [DecidableEq α]
    {d : List (α × Nat)} {k : α} (h : (d.map Prod.fst).Nodup) :
    ((bumpCount d k).map Prod.fst).Nodup :=
  keys_nodup_dinsert h

theorem applyMinCounts_le (pos : List (Char × Nat)) :
    ∀ (minC : List (Char × Nat)) (c : Char),
      lookupD minC c 0 ≤ lookupD (applyMinCounts minC pos) c 0 := by
  induction pos with
  | nil => intro minC c; simp [applyMinCounts]
  | cons q rest ih =>
    obtain ⟨a, k⟩ := q
    intro minC c
    simp only [applyMinCounts]
    refine le_trans ?_ (ih (dinsert minC a (Nat.max (lookupD minC a 0) k)) c)
    by_cases hca : c = a
    · subst hca
      unfold lookupD
      rw [lookup_dinsert_self]
      simp [lookupD]
    · unfold lookupD
      rw [lookup_dinsert_ne _ _ _ _ hca]

theorem applyMinCounts_ge (pos : List (Char × Nat)) :
    ∀ (minC : List (Char × Nat)) (c : Char),
      lookupD pos c 0 ≤ lookupD (applyMinCounts minC pos) c 0 := by
  induction pos with
  | nil => intro minC c; simp [lookupD, lookup]
  | cons q rest ih =>
    obtain ⟨a, k⟩ := q
    intro minC c
    simp only [applyMinCounts]
    by_cases hac : a = c
    · subst hac
      have h1 : lookupD ((a, k) :: rest) a 0 = k := by simp [lookupD, lookup]
      rw [h1]
      have h2 : lookupD (dinsert minC a (Nat.max (lookupD minC a 0) k)) a 0 =
          Nat.max (lookupD minC a 0) k := by
        unfold lookupD
        rw [lookup_dinsert_self]
        rfl
      have h3 := applyMinCounts_le rest
        (dinsert minC a (Nat.max (lookupD minC a 0) k)) a
      have h4 : k ≤ Nat.max (lookupD minC a 0) k := Nat.le_max_right _ _
      omega
    · have h1 : lookupD ((a, k) :: rest) c 0 = lookupD rest c 0 := by
        simp [lookupD, lookup, hac]
      rw [h1]
      exact ih _ c

theorem applyMinCounts_bound (s : List Char) (pos : List (Char × Nat)) :
    ∀ (minC : List (Char × Nat)),
      (∀ p ∈ minC, p.2 ≤ s.count p.1) → (∀ p ∈ pos, p.2 ≤ s.count p.1) →
      ∀ p ∈ applyMinCounts minC pos, p.2 ≤ s.count p.1 := by
  induction pos with
  | nil => intro minC hmin _; simpa [applyMinCounts] using hmin
  | cons q rest ih =>
    obtain ⟨a, k⟩ := q
    intro minC hmin hpos
    simp only [applyMinCounts]
    refine ih _ ?_ (fun p hp => hpos p (List.mem_cons_of_mem _ hp))
    refine dinsert_forall hmin ?_
    have hk : k ≤ s.count a := hpos (a, k) (List.mem_cons_self _ _)
    have hl : lookupD minC a 0 ≤ s.count a := by
      unfold lookupD
      cases hla : lookup minC a with
      | none => simp
      | some v =>
        have := hmin (a, v) (lookup_mem hla)
        simpa using this
    simpa using Nat.max_le.mpr ⟨hl, hk⟩

theorem applyMinCounts_values (pos : List (Char × Nat)) :
    ∀ (minC : List (Char × Nat)),
      (∀ p ∈ minC, 1 ≤ p.2) → (∀ p ∈ pos, 1 ≤ p.2) →
      ∀ p ∈ applyMinCounts minC pos, 1 ≤ p.2 := by
  induction pos with
  | nil => intro minC hmin _; simpa [applyMinCounts] using hmin
  | cons q rest ih =>
    obtain ⟨a, k⟩ := q
    intro minC hmin hpos
    simp only [applyMinCounts]
    refine ih _ ?_ (fun p hp => hpos p (List.mem_cons_of_mem _ hp))
    refine dinsert_forall hmin ?_
    have hk : 1 ≤ k := hpos (a, k) (List.mem_cons_self _ _)
    show 1 ≤ Nat.max (lookupD minC a 0) k
    exact le_trans hk (Nat.le_max_right _ _)

theorem discardYellow_faithful (s : List Char) (yellow : List (Nat × List Char))
    (index : Nat) (letter : Char)
    (hY : ∀ p ∈ yellow, ∀ c ∈ p.2, s.get? p.1 ≠ some c) :
    ∀ p ∈ discardYellow yellow index letter, ∀ c ∈ p.2, s.get? p.1 ≠ some c := by
  unfold discardYellow
  cases hly : lookup yellow index with
  | none => exact hY
  | some yset =>
    refine dinsert_forall hY ?_
    intro c hc
    exact hY (index, yset) (lookup_mem hly) c (mem_sdiscard_iff.mp hc).1

theorem discardYellow_mem (s : List Char) (yellow : List (Nat × List Char))
    (index : Nat) (letter : Char)
    (hY : ∀ p ∈ yellow, ∀ c ∈ p.2, s.get? p.1 ≠ some c)
    (hlet : s.get? index = some letter) :
    ∀ i c, c ∈ lookupD yellow i [] →
      c ∈ lookupD (discardYellow yellow index letter) i [] := by
  intro i c hc
  unfold discardYellow
  cases hly : lookup yellow index with
  | none => exact hc
  | some yset =>
    by_cases hi : i = index
    · subst hi
      have hcy : c ∈ yset := by
        unfold lookupD at hc
        rw [hly] at hc
        exact hc
      have hne : c ≠ letter := by
        intro hcl
        exact hY (i, yset) (lookup_mem hly) c hcy (hcl ▸ hlet)
      unfold lookupD
      rw [lookup_dinsert_self]
      exact mem_sdiscard_iff.mpr ⟨hcy, hne⟩
    · unfold lookupD
      rw [lookup_dinsert_ne _ _ _ _ hi]
      exact hc

/-! ## Lemmas about `processEntries` -/

theorem processEntries_pos_eval (fb_all : Feedback) (entries : Feedback) :
    ∀ green yellow gray pos (c : Char),
      lookupD (processEntries fb_all entries green yellow gray pos).2.2.2 c 0 =
        lookupD pos c 0 + entries.countP (isPosFor c) := by
  induction entries with
  | nil => intro green yellow gray pos c; simp [processEntries]
  | cons e rest ih =>
    obtain ⟨letter, status, index⟩ := e
    intro green yellow gray pos c
    cases status with
    | correct =>
      simp only [processEntries]
      rw [ih, List.countP_cons]
      by_cases hlc : letter = c
      · subst hlc
        rw [lookupD_bumpCount_self]
        have hp : isPosFor letter (letter, Status.correct, index) = true := by
          simp [isPosFor]
        simp [hp]
        omega
      · rw [lookupD_bumpCount_ne _ _ _ (fun h => hlc h.symm)]
        have hp : isPosFor c (letter, Status.correct, index) = false := by
          simp [isPosFor, hlc]
        simp [hp]
    | present =>
      simp only [processEntries]
      rw [ih, List.countP_cons]
      by_cases hlc : letter = c
      · subst hlc
        rw [lookupD_bumpCount_self]
        have hp : isPosFor letter (letter, Status.present, index) = true := by
          simp [isPosFor]
        simp [hp]
        omega
      · rw [lookupD_bumpCount_ne _ _ _ (fun h => hlc h.symm)]
        have hp : isPosFor c (letter, Status.present, index) = false := by
          simp [isPosFor, hlc]
        simp [hp]
    | absent =>
      simp only [processEntries]
      rw [ih, List.countP_cons]
      have hp : isPosFor c (letter, Status.absent, index) = false := by
        simp [isPosFor]
      simp [hp]

theorem processEntries_pos_values (fb_all : Feedback) (entries : Feedback) :
    ∀ green yellow gray pos, (∀ p ∈ pos, 1 ≤ p.2) →
      ∀ p ∈ (processEntries fb_all entries green yellow gray pos).2.2.2,
        1 ≤ p.2 := by
  induction entries with
  | nil => intro green yellow gray pos h; simpa [processEntries] using h
  | cons e rest ih =>
    obtain ⟨letter, status, index⟩ := e
    intro green yellow gray pos h
    cases status with
    | correct =>
      simp only [processEntries]
      exact ih _ _ _ _ (bumpCount_values h)
    | present =>
      simp only [processEntries]
      exact ih _ _ _ _ (bumpCount_values h)
    | absent =>
      simp only [processEntries]
      exact ih _ _ _ _ h

theorem processEntries_pos_nodup (fb_all : Feedback) (entries : Feedback) :
    ∀ green yellow gray pos, (pos.map Prod.fst).Nodup →
      (((processEntries fb_all entries green yellow gray pos).2.2.2).map
        Prod.fst).Nodup := by
  induction entries with
  | nil => intro green yellow gray pos h; simpa [processEntries] using h
  | cons e rest ih =>
    obtain ⟨letter, status, index⟩ := e
    intro green yellow gray pos h
    cases status with
    | correct =>
      simp only [processEntries]
      exact ih _ _ _ _ (bumpCount_keys_nodup h)
    | present =>
      simp only [processEntries]
      exact ih _ _ _ _ (bumpCount_keys_nodup h)
    | absent =>
      simp only [processEntries]
      exact ih _ _ _ _ h

/-- Main lemma about the constraint-update loop: starting from
accumulators faithful to the secret `s` and processing entries of a
genuine feedback, the resulting green/yellow/gray accumulators are again
faithful, and none of the recorded knowledge is lost (green pins keep
their value, yellow memberships and gray letters survive). -/
theorem processEntries_model (s : List Char) (fb_all : Feedback)
    (hfact : ∀ e ∈ fb_all, EntryFact s e)
    (habs0 : ∀ e ∈ fb_all, e.2.1 = Status.absent →
      fb_all.countP (isPosFor e.1) = 0 → s.count e.1 = 0) :
    ∀ (entries : Feedback) green yellow gray pos,
      (∀ e ∈ entries, e ∈ fb_all) →
      (∀ p ∈ green, s.get? p.1 = some p.2) →
      (∀ p ∈ yellow, ∀ c ∈ p.2, s.get? p.1 ≠ some c) →
      (∀ c ∈ gray, s.count c = 0) →
      (∀ p ∈ (processEntries fb_all entries green yellow gray pos).1,
        s.get? p.1 = some p.2) ∧
      (∀ p ∈ (processEntries fb_all entries green yellow gray pos).2.1,
        ∀ c ∈ p.2, s.get? p.1 ≠ some c) ∧
      (∀ c ∈ (processEntries fb_all entries green yellow gray pos).2.2.1,
        s.count c = 0) ∧
      (∀ i c, lookup green i = some c →
        lookup (processEntries fb_all entries green yellow gray pos).1 i =
          some c) ∧
      (∀ i c, c ∈ lookupD yellow i [] →
        c ∈ lookupD (processEntries fb_all entries green yellow gray pos).2.1
          i []) ∧
      (∀ c ∈ gray,
        c ∈ (processEntries fb_all entries green yellow gray pos).2.2.1) := by
  intro entries
  induction entries with
  | nil =>
    intro green yellow gray pos hsub hG hY hGr
    simp only [processEntries]
    exact ⟨hG, hY, hGr, fun i c h => h, fun i c h => h, fun c h => h⟩
  | cons e rest ih =>
    obtain ⟨letter, status, index⟩ := e
    intro green yellow gray pos hsub hG hY hGr
    have hmem : (letter, status, index) ∈ fb_all :=
      hsub _ (List.mem_cons_self _ _)
    have hsub' : ∀ e ∈ rest, e ∈ fb_all :=
      fun e he => hsub e (List.mem_cons_of_mem _ he)
    have hef := hfact _ hmem
    cases status with
    | correct =>
      have hlet : s.get? index = some letter := hef.1 rfl
      simp only [processEntries]
      have hG' : ∀ p ∈ dinsert green index letter, s.get? p.1 = some p.2 :=
        dinsert_forall hG hlet
      have hY' := discardYellow_faithful s yellow index letter hY
      obtain ⟨r1, r2, r3, r4, r5, r6⟩ :=
        ih _ _ _ (bumpCount pos letter) hsub' hG' hY' hGr
      refine ⟨r1, r2, r3, ?_, ?_, r6⟩
      · intro i c hic
        apply r4
        by_cases hi : i = index
        · subst hi
          have hpm : (i, c) ∈ green := lookup_mem hic
          have hsc : s.get? i = some c := hG _ hpm
          have hcl : c = letter := by
            rw [hlet] at hsc
            exact (Option.some.inj hsc).symm
          rw [hcl]
          exact lookup_dinsert_self green i letter
        · rw [lookup_dinsert_ne _ _ _ _ hi]
          exact hic
      · intro i c hic
        exact r5 i c (discardYellow_mem s yellow index letter hY hlet i c hic)
    | present =>
      have hlet : s.get? index ≠ some letter := hef.2 rfl
      simp only [processEntries]
      have hY' : ∀ p ∈ dinsert yellow index
          (sadd (lookupD yellow index []) letter),
          ∀ c ∈ p.2, s.get? p.1 ≠ some c := by
        refine dinsert_forall hY ?_
        intro c hc
        rcases mem_sadd_iff.mp hc with h1 | h1
        · unfold lookupD at h1
          cases hly : lookup yellow index with
          | none =>
            rw [hly] at h1
            simp at h1
          | some yset =>
            rw [hly] at h1
            simp only [Option.getD_some] at h1
            exact hY (index, yset) (lookup_mem hly) c h1
        · rw [h1]
          exact hlet
      obtain ⟨r1, r2, r3, r4, r5, r6⟩ := ih _ _ _ _ hsub' hG hY' hGr
      refine ⟨r1, r2, r3, r4, ?_, r6⟩
      · intro i c hic
        apply r5
        by_cases hi : i = index
        · subst hi
          unfold lookupD
          rw [lookup_dinsert_self]
          simp only [Option.getD_some]
          exact mem_sadd_iff.mpr (Or.inl hic)
        · unfold lookupD
          rw [lookup_dinsert_ne _ _ _ _ hi]
          exact hic
    | absent =>
      simp only [processEntries]
      by_cases hb : fb_all.any (isPosFor letter) = true
      · rw [if_neg (by rw [hb]; simp)]
        exact ih _ _ _ _ hsub' hG hY hGr
      · have hbf : fb_all.any (isPosFor letter) = false :=
          Bool.not_eq_true _ ▸ (by simpa using hb)
        rw [if_pos (by rw [hbf]; simp)]
        have hcount : s.count letter = 0 := by
          apply habs0 _ hmem rfl
          refine List.countP_eq_zero.mpr ?_
          exact fun e he => (List.any_eq_false.mp hbf) e he
        have hGr' : ∀ c ∈ sadd gray letter, s.count c = 0 := by
          intro c hc
          rcases mem_sadd_iff.mp hc with h1 | h1
          · exact hGr c h1
          · rw [h1]
            exact hcount
        obtain ⟨r1, r2, r3, r4, r5, r6⟩ := ih _ _ _ _ hsub' hG hY hGr'
        exact ⟨r1, r2, r3, r4, r5,
          fun c hc => r6 c (mem_sadd_iff.mpr (Or.inl hc))⟩

/-! ## State-level lemmas and self-consistency -/

/-- The fields of `add_feedback` spelled out. -/
theorem add_feedback_defs (st : SolverState) (g : List Char) (fb : Feedback) :
    (add_feedback st g fb).green_letters =
      (processEntries fb fb st.green_letters st.yellow_letters
        st.gray_letters []).1 ∧
    (add_feedback st g fb).yellow_letters =
      (processEntries fb fb st.green_letters st.yellow_letters
        st.gray_letters []).2.1 ∧
    (add_feedback st g fb).gray_letters =
      (processEntries fb fb st.green_letters st.yellow_letters
        st.gray_letters []).2.2.1 ∧
    (add_feedback st g fb).min_letter_counts =
      applyMinCounts st.min_letter_counts
        (processEntries fb fb st.green_letters st.yellow_letters
          st.gray_letters []).2.2.2 ∧
    (add_feedback st g fb).guesses_history = st.guesses_history ++ [g] ∧
    (add_feedback st g fb).feedback_history = st.feedback_history ++ [fb] ∧
    (add_feedback st g fb).word_length = st.word_length ∧
    (add_feedback st g fb).all_valid_words = st.all_valid_words :=
  ⟨rfl, rfl, rfl, rfl, rfl, rfl, rfl, rfl⟩

/-- A successful `check_guess` forces both inputs to have length 5. -/
theorem check_guess_ok_lengths {g s : List Char} {r : Bool × Feedback}
    (h : check_guess g s = Except.ok r) :
    g.length = WORD_LENGTH ∧ s.length = WORD_LENGTH := by
  unfold check_guess at h
  by_cases hcond : g.length ≠ WORD_LENGTH ∨ s.length ≠ WORD_LENGTH
  · rw [if_pos hcond] at h
    exact absurd h (by simp)
  · push_neg at hcond
    exact hcond

/-- Every entry of a genuine feedback carries its semantic facts. -/
theorem check_entry_fact {g s : List Char} {b : Bool} {fb : Feedback}
    (hok : check_guess g s = Except.ok (b, fb)) :
    ∀ e ∈ fb, EntryFact s e := by
  obtain ⟨hg, hs⟩ := check_guess_ok_lengths hok
  intro e he
  obtain ⟨j, hj⟩ := List.mem_iff_get?.mp he
  obtain ⟨hidx, _, hiff⟩ := check_entry hg hs hok j e hj
  constructor
  · intro hst
    rw [hidx]
    exact hiff.mp hst
  · intro hst hcontra
    have : e.2.1 = Status.correct := hiff.mpr (hidx ▸ hcontra)
    rw [hst] at this
    exact absurd this (by simp)

/-- An absent entry whose letter has no positive marking anywhere in the
feedback really is absent from the secret. -/
theorem check_absent_fact {g s : List Char} {b : Bool} {fb : Feedback}
    (hok : check_guess g s = Except.ok (b, fb)) :
    ∀ e ∈ fb, e.2.1 = Status.absent →
      fb.countP (isPosFor e.1) = 0 → s.count e.1 = 0 := by
  obtain ⟨hg, hs⟩ := check_guess_ok_lengths hok
  intro e he habs hzero
  obtain ⟨l, st, k⟩ := e
  simp only at habs
  subst habs
  have heq := check_pos_eq_of_absent hg hs hok l k he
  rw [posCountFb] at heq
  simp only at hzero
  rw [hzero] at heq
  exact heq.symm

/-- Applying `add_feedback` with genuine feedback preserves faithfulness. -/
theorem add_feedback_faithful (s : List Char) (st : SolverState)
    (g : List Char) (fb : Feedback) (hst : ModelFaithful s st)
    (hfb : ∃ b, check_guess g s = Except.ok (b, fb)) :
    ModelFaithful s (add_feedback st g fb) := by
  obtain ⟨b, hok⟩ := hfb
  obtain ⟨hG, hY, hGr, hM, hH, hL, hW⟩ := hst
  obtain ⟨hg, hs⟩ := check_guess_ok_lengths hok
  have hfact := check_entry_fact hok
  have habs0 := check_absent_fact hok
  obtain ⟨r1, r2, r3, _, _, _⟩ :=
    processEntries_model s fb hfact habs0 fb st.green_letters
      st.yellow_letters st.gray_letters [] (fun e he => he) hG hY hGr
  obtain ⟨e1, e2, e3, e4, e5, e6, e7, e8⟩ := add_feedback_defs st g fb
  refine ⟨?_, ?_, ?_, ?_, ?_, ?_, ?_⟩
  · rw [e1]; exact r1
  · rw [e2]; exact r2
  · rw [e3]; exact r3
  · rw [e4]
    refine applyMinCounts_bound s _ st.min_letter_counts hM ?_
    intro p hp
    have hnd := processEntries_pos_nodup fb fb st.green_letters
      st.yellow_letters st.gray_letters [] (by simp)
    have hlk := lookup_of_mem_keys_nodup hnd hp
    have heval := processEntries_pos_eval fb fb st.green_letters
      st.yellow_letters st.gray_letters [] p.1
    have hval : lookupD (processEntries fb fb st.green_letters
        st.yellow_letters st.gray_letters []).2.2.2 p.1 0 = p.2 := by
      unfold lookupD
      rw [hlk]
      rfl
    have hle := check_pos_le hg hs hok p.1
    rw [posCountFb] at hle
    rw [hval] at heval
    have hnil : lookupD ([] : List (Char × Nat)) p.1 0 = 0 := rfl
    rw [hnil] at heval
    omega
  · rw [e5, e6]
    intro r hr
    rw [List.zip_append hL] at hr
    rcases List.mem_append.mp hr with h1 | h1
    · exact hH r h1
    · have hgfb : r = (g, fb) := by simpa using h1
      rw [hgfb]
      exact ⟨b, hok⟩
  · rw [e5, e6]
    simp [hL]
  · rw [e7]
    exact hW

theorem run_updates_faithful (s : List Char)
    (upds : List (List Char × Feedback)) :
    ∀ st, ModelFaithful s st →
      (∀ u ∈ upds, ∃ b, check_guess u.1 s = Except.ok (b, u.2)) →
      ModelFaithful s (run_updates st upds) := by
  induction upds with
  | nil => intro st h _; exact h
  | cons u rest ih =>
    obtain ⟨g, fb⟩ := u
    intro st h hupd
    exact ih _
      (add_feedback_faithful s st g fb h (hupd _ (List.mem_cons_self _ _)))
      (fun u hu => hupd u (List.mem_cons_of_mem _ hu))

theorem initSolver_faithful (s : List Char) (valid : List (List Char)) :
    ModelFaithful s (initSolver valid WORD_LENGTH) := by
  refine ⟨?_, ?_, ?_, ?_, ?_, rfl, rfl⟩ <;> simp [initSolver]

theorem recordPairs_eq (g : List Char) (fb : Feedback)
    (hlet : fb.map (fun e => e.1) = g) (hlen : fb.length = WORD_LENGTH) :
    recordPairs WORD_LENGTH g fb = fb.map (fun e => (e.1, e.2.1)) := by
  subst hlet
  unfold recordPairs
  rw [List.zip_map']
  apply List.take_of_length_le
  simp [hlen]

theorem posCountR_map (c : Char) (fb : Feedback) :
    posCountR c (fb.map (fun e => (e.1, e.2.1))) = posCountFb c fb := by
  unfold posCountR posCountFb
  rw [List.countP_map]
  rfl

theorem hasGrayR_map (c : Char) (fb : Feedback) :
    hasGrayR c (fb.map (fun e => (e.1, e.2.1))) =
      fb.any (fun e => e.1 = c && e.2.1 = Status.absent) := by
  unfold hasGrayR
  induction fb with
  | nil => rfl
  | cons e rest ih => simp [ih]

/-- The secret itself always passes the exact-count check of one of its
own genuine feedback records. -/
theorem exactOkRecord_self (s g : List Char) (b : Bool) (fb : Feedback)
    (hok : check_guess g s = Except.ok (b, fb)) :
    exactOkRecord WORD_LENGTH s g fb = true := by
  obtain ⟨hg, hs⟩ := check_guess_ok_lengths hok
  have hlet := check_letters hg hs hok
  have hlen := check_length hg hs hok
  unfold exactOkRecord
  rw [recordPairs_eq g fb hlet hlen, List.all_eq_true]
  intro p hp
  by_cases hgray : hasGrayR p.1 (fb.map (fun e => (e.1, e.2.1))) = true
  · have hex : ∃ e ∈ fb, e.1 = p.1 ∧ e.2.1 = Status.absent := by
      rw [hasGrayR_map] at hgray
      obtain ⟨e, he, hpe⟩ := List.any_eq_true.mp hgray
      simp only [Bool.and_eq_true, decide_eq_true_eq] at hpe
      exact ⟨e, he, hpe⟩
    obtain ⟨e, he, hl, hstat⟩ := hex
    obtain ⟨l0, st0, k0⟩ := e
    simp only at hl hstat
    subst hl
    subst hstat
    have heq := check_pos_eq_of_absent hg hs hok p.1 k0 he
    have hcnt : s.count p.1 = posCountR p.1 (fb.map (fun e => (e.1, e.2.1))) := by
      rw [posCountR_map]
      exact heq.symm
    simp [hcnt]
  · have hgf : hasGrayR p.1 (fb.map (fun e => (e.1, e.2.1))) = false := by
      simpa using hgray
    simp [hgf]

/-- A state faithful to `s` accepts `s` as consistent. -/
theorem faithful_is_consistent (s : List Char) (st : SolverState)
    (h : ModelFaithful s st) : is_consistent st s = true := by
  obtain ⟨hG, hY, hGr, hM, hH, hL, hW⟩ := h
  have h1 : greenOk st.green_letters s = true := by
    rw [greenOk, List.all_eq_true]
    intro p hp
    rw [hG p hp]
    simp
  have h2 : yellowOk st.yellow_letters s = true := by
    rw [yellowOk, List.all_eq_true]
    intro p hp
    cases hget : s.get? p.1 with
    | none => simp [hget]
    | some c0 =>
      simp only [hget]
      cases hb : p.2.contains c0 with
      | false => simp
      | true => exact absurd hget (hY p hp c0 (List.elem_iff.mp hb))
  have h3 : grayOk st.gray_letters st.min_letter_counts s = true := by
    rw [grayOk, List.all_eq_true]
    intro c hc
    have hnm : c ∉ s := List.count_eq_zero.mp (hGr c hc)
    simp [hnm]
  have h4 : minOk st.min_letter_counts s = true := by
    rw [minOk, List.all_eq_true]
    intro p hp
    simpa using hM p hp
  have h5 : exactOk st.word_length s st.guesses_history
      st.feedback_history = true := by
    rw [hW, exactOk, List.all_eq_true]
    intro r hr
    obtain ⟨b, hok⟩ := hH r hr
    exact exactOkRecord_self s r.1 b r.2 hok
  simp [is_consistent, h1, h2, h3, h4, h5]

/-- C1: for any corpus and any sequence of model updates whose feedback
was produced by `check_guess` against the secret `s` itself, `s` still
passes `_is_consistent` — the true secret is never filtered out by
feedback derived from itself, regardless of how many updates have been
applied. -/
theorem c1_self_consistency (valid : List (List Char)) (s : List Char)
    (upds : List (List Char × Feedback))
    (hupds : ∀ u ∈ upds, ∃ b, check_guess u.1 s = Except.ok (b, u.2)) :
    is_consistent (run_updates (initSolver valid WORD_LENGTH) upds) s = true :=
  faithful_is_consistent s _
    (run_updates_faithful s upds _ (initSolver_faithful s valid) hupds)

/-- Witness for C1: corpus `{"porta","carta","festa"}`, secret
`"porta"`, one update with the genuine feedback for guess `"acelo"`. -/
theorem c1_self_consistency_witness :
    (∀ u ∈ [((['a', 'c', 'e', 'l', 'o'] : List Char),
        ([('a', Status.present, 0), ('c', Status.absent, 1),
          ('e', Status.absent, 2), ('l', Status.absent, 3),
          ('o', Status.present, 4)] : Feedback))],
      ∃ b, check_guess u.1 ['p', 'o', 'r', 't', 'a'] =
        Except.ok (b, u.2)) ∧
    is_consistent
      (run_updates
        (initSolver [['p', 'o', 'r', 't', 'a'], ['c', 'a', 'r', 't', 'a'],
          ['f', 'e', 's', 't', 'a']] WORD_LENGTH)
        [(['a', 'c', 'e', 'l', 'o'],
          [('a', Status.present, 0), ('c', Status.absent, 1),
           ('e', Status.absent, 2), ('l', Status.absent, 3),
           ('o', Status.present, 4)])])
      ['p', 'o', 'r', 't', 'a'] = true := by
  have h : ∀ u ∈ [((['a', 'c', 'e', 'l', 'o'] : List Char),
      ([('a', Status.present, 0), ('c', Status.absent, 1),
        ('e', Status.absent, 2), ('l', Status.absent, 3),
        ('o', Status.present, 4)] : Feedback))],
      ∃ b, check_guess u.1 ['p', 'o', 'r', 't', 'a'] =
        Except.ok (b, u.2) := by
    intro u hu
    rw [List.mem_singleton] at hu
    subst hu
    exact ⟨false, rfl⟩
  exact ⟨h, c1_self_consistency _ _ _ h⟩

/-! ## Run-level bookkeeping lemmas -/

theorem run_updates_append (l1 l2 : List (List Char × Feedback)) :
    ∀ st, run_updates st (l1 ++ l2) = run_updates (run_updates st l1) l2 := by
  induction l1 with
  | nil => intro st; rfl
  | cons u rest ih =>
    obtain ⟨g, fb⟩ := u
    intro st
    simp only [List.cons_append, run_updates]
    exact ih _

theorem run_updates_histories (upds : List (List Char × Feedback)) :
    ∀ st, (run_updates st upds).guesses_history =
        st.guesses_history ++ upds.map Prod.fst ∧
      (run_updates st upds).feedback_history =
        st.feedback_history ++ upds.map Prod.snd := by
  induction upds with
  | nil => intro st; simp [run_updates]
  | cons u rest ih =>
    obtain ⟨g, fb⟩ := u
    intro st
    simp only [run_updates, List.map_cons]
    obtain ⟨ih1, ih2⟩ := ih (add_feedback st g fb)
    rw [ih1, ih2]
    obtain ⟨_, _, _, _, e5, e6, _, _⟩ := add_feedback_defs st g fb
    rw [e5, e6]
    simp

theorem run_updates_word_length (upds : List (List Char × Feedback)) :
    ∀ st, (run_updates st upds).word_length = st.word_length := by
  induction upds with
  | nil => intro st; rfl
  | cons u rest ih =>
    obtain ⟨g, fb⟩ := u
    intro st
    simp only [run_updates]
    rw [ih]
    exact (add_feedback_defs st g fb).2.2.2.2.2.2.1

theorem add_feedback_min_ge (st : SolverState) (g : List Char) (fb : Feedback)
    (c : Char) :
    fb.countP (isPosFor c) ≤
      lookupD (add_feedback st g fb).min_letter_counts c 0 := by
  obtain ⟨_, _, _, e4, _, _, _, _⟩ := add_feedback_defs st g fb
  rw [e4]
  have h1 := processEntries_pos_eval fb fb st.green_letters st.yellow_letters
    st.gray_letters [] c
  have h2 := applyMinCounts_ge
    (processEntries fb fb st.green_letters st.yellow_letters
      st.gray_letters []).2.2.2 st.min_letter_counts c
  have hnil : lookupD ([] : List (Char × Nat)) c 0 = 0 := rfl
  omega

theorem add_feedback_min_le (st : SolverState) (g : List Char) (fb : Feedback)
    (c : Char) :
    lookupD st.min_letter_counts c 0 ≤
      lookupD (add_feedback st g fb).min_letter_counts c 0 := by
  obtain ⟨_, _, _, e4, _, _, _, _⟩ := add_feedback_defs st g fb
  rw [e4]
  exact applyMinCounts_le _ _ c

theorem run_updates_min_le (upds : List (List Char × Feedback)) :
    ∀ st (c : Char), lookupD st.min_letter_counts c 0 ≤
      lookupD (run_updates st upds).min_letter_counts c 0 := by
  induction upds with
  | nil => intro st c; exact le_refl _
  | cons u rest ih =>
    obtain ⟨g, fb⟩ := u
    intro st c
    simp only [run_updates]
    exact le_trans (add_feedback_min_le st g fb c) (ih _ c)

/-- C3: if a recorded well-shaped history record marks letter `c` Absent
somewhere, then every word accepted by `_is_consistent` has exactly the
record's Correct+Present count of `c` (in particular a word without `c`
survives only when that count is zero). -/
theorem c3_exact_count (valid : List (List Char))
    (upds : List (List Char × Feedback)) (g word : List Char) (fb : Feedback)
    (c : Char) (j : Nat)
    (hmem : (g, fb) ∈ upds)
    (hlet : fb.map (fun e => e.1) = g)
    (hlen : fb.length = WORD_LENGTH)
    (habs : (c, Status.absent, j) ∈ fb)
    (hcons : is_consistent (run_updates (initSolver valid WORD_LENGTH) upds)
      word = true) :
    word.count c = posCountFb c fb := by
  rw [is_consistent] at hcons
  simp only [Bool.and_eq_true] at hcons
  obtain ⟨⟨⟨⟨hgr, hy⟩, hgray0⟩, hmin⟩, hex⟩ := hcons
  have hist := run_updates_histories upds (initSolver valid WORD_LENGTH)
  have hzip : (run_updates (initSolver valid WORD_LENGTH)
        upds).guesses_history.zip
      (run_updates (initSolver valid WORD_LENGTH) upds).feedback_history =
      upds := by
    rw [hist.1, hist.2]
    simp only [initSolver, List.nil_append]
    rw [List.zip_map']
    simp
  have hwl5 : (run_updates (initSolver valid WORD_LENGTH) upds).word_length =
      WORD_LENGTH := by
    rw [run_updates_word_length]
    rfl
  rw [hwl5, exactOk, hzip, List.all_eq_true] at hex
  have hrec := hex (g, fb) hmem
  simp only [exactOkRecord] at hrec
  rw [recordPairs_eq g fb hlet hlen, List.all_eq_true] at hrec
  have hp : ((c, Status.absent) : Char × Status) ∈
      fb.map (fun e => (e.1, e.2.1)) :=
    List.mem_map.mpr ⟨(c, Status.absent, j), habs, rfl⟩
  have hcheck := hrec _ hp
  have hgray : hasGrayR c (fb.map (fun e => (e.1, e.2.1))) = true := by
    rw [hasGrayR_map]
    exact List.any_eq_true.mpr ⟨(c, Status.absent, j), habs, by simp⟩
  by_cases hw : word.contains c = true
  · simp only [hgray, hw, posCountR_map, Bool.and_self, Bool.not_true,
      Bool.false_or, decide_eq_true_eq] at hcheck
    exact hcheck
  · have hwc : word.count c = 0 :=
      List.count_eq_zero.mpr (fun hm => hw (List.elem_iff.mpr hm))
    by_cases hk : posCountFb c fb = 0
    · rw [hwc, hk]
    · exfalso
      obtain ⟨pre, post, hsplit⟩ := List.append_of_mem hmem
      have hge : posCountFb c fb ≤
          lookupD (run_updates (initSolver valid WORD_LENGTH)
            upds).min_letter_counts c 0 := by
        rw [hsplit, run_updates_append, run_updates]
        refine le_trans ?_ (run_updates_min_le post _ c)
        exact add_feedback_min_ge _ g fb c
      have hlkup : ∃ v, lookup (run_updates (initSolver valid WORD_LENGTH)
          upds).min_letter_counts c = some v ∧ posCountFb c fb ≤ v := by
        cases hl : lookup (run_updates (initSolver valid WORD_LENGTH)
            upds).min_letter_counts c with
        | none =>
          exfalso
          unfold lookupD at hge
          rw [hl] at hge
          simp at hge
          omega
        | some v =>
          refine ⟨v, rfl, ?_⟩
          unfold lookupD at hge
          rw [hl] at hge
          simpa using hge
      obtain ⟨v, hl, hv⟩ := hlkup
      have hmem' : (c, v) ∈ (run_updates (initSolver valid WORD_LENGTH)
          upds).min_letter_counts := lookup_mem hl
      rw [minOk, List.all_eq_true] at hmin
      have hle := hmin (c, v) hmem'
      simp only [decide_eq_true_eq] at hle
      rw [hwc] at hle
      omega

/-- Witness for C3: history record (guess `"asate"`, feedback marking
`'a'` Present at 0 and Absent at 2), surviving word `"xayzw"`. -/
theorem c3_exact_count_witness :
    is_consistent
      (run_updates (initSolver [] WORD_LENGTH)
        [(['a', 's', 'a', 't', 'e'],
          [('a', Status.present, 0), ('s', Status.absent, 1),
           ('a', Status.absent, 2), ('t', Status.absent, 3),
           ('e', Status.absent, 4)])])
      ['x', 'a', 'y', 'z', 'w'] = true ∧
    ['x', 'a', 'y', 'z', 'w'].count 'a' =
      posCountFb 'a'
        [('a', Status.present, 0), ('s', Status.absent, 1),
         ('a', Status.absent, 2), ('t', Status.absent, 3),
         ('e', Status.absent, 4)] :=
  ⟨by decide,
    c3_exact_count []
      [(['a', 's', 'a', 't', 'e'],
        [('a', Status.present, 0), ('s', Status.absent, 1),
         ('a', Status.absent, 2), ('t', Status.absent, 3),
         ('e', Status.absent, 4)])]
      ['a', 's', 'a', 't', 'e'] ['x', 'a', 'y', 'z', 'w']
      [('a', Status.present, 0), ('s', Status.absent, 1),
       ('a', Status.absent, 2), ('t', Status.absent, 3),
       ('e', Status.absent, 4)]
      'a' 2 (by decide) (by decide) (by decide) (by decide) (by decide)⟩

/-! ## Gray-letter semantics and the empty-candidate branch -/

theorem add_feedback_min_values (st : SolverState) (g : List Char)
    (fb : Feedback) (h : ∀ p ∈ st.min_letter_counts, 1 ≤ p.2) :
    ∀ p ∈ (add_feedback st g fb).min_letter_counts, 1 ≤ p.2 := by
  obtain ⟨_, _, _, e4, _, _, _, _⟩ := add_feedback_defs st g fb
  rw [e4]
  exact applyMinCounts_values _ _ h
    (processEntries_pos_values fb fb _ _ _ [] (by simp))

theorem run_updates_min_values (upds : List (List Char × Feedback)) :
    ∀ st, (∀ p ∈ st.min_letter_counts, 1 ≤ p.2) →
      ∀ p ∈ (run_updates st upds).min_letter_counts, 1 ≤ p.2 := by
  induction upds with
  | nil => intro st h; exact h
  | cons u rest ih =>
    obtain ⟨g, fb⟩ := u
    intro st h
    exact ih _ (add_feedback_min_values st g fb h)

/-- C7: a gray letter occurring in the word rejects it exactly when the
letter has no recorded min count: (i) with no `min_letter_counts` entry
the word is rejected; (ii) when every gray letter occurring in the word
has a recorded entry, the gray check itself passes; (iii) every recorded
min count in a reachable state is positive, so "has an entry" coincides
with "min count greater than zero". -/
theorem c7_gray_needs_min (st : SolverState) (word : List Char) (c : Char) :
    (c ∈ st.gray_letters → word.contains c = true →
      lookup st.min_letter_counts c = none →
      is_consistent st word = false) ∧
    ((∀ c' ∈ st.gray_letters, word.contains c' = true →
        (lookup st.min_letter_counts c').isSome = true) →
      grayOk st.gray_letters st.min_letter_counts word = true) ∧
    (∀ (valid : List (List Char)) (wl : Nat)
        (upds : List (List Char × Feedback)) (p : Char × Nat),
      p ∈ (run_updates (initSolver valid wl) upds).min_letter_counts →
      1 ≤ p.2) := by
  refine ⟨?_, ?_, ?_⟩
  · intro hcg hwc hnone
    have hfalse : grayOk st.gray_letters st.min_letter_counts word = false := by
      cases hb : grayOk st.gray_letters st.min_letter_counts word with
      | false => rfl
      | true =>
        rw [grayOk, List.all_eq_true] at hb
        have := hb c hcg
        rw [hwc, hnone] at this
        simp at this
    rw [is_consistent, hfalse]
    simp
  · intro hyp
    rw [grayOk, List.all_eq_true]
    intro c' hc'
    by_cases hwc : word.contains c' = true
    · have hsome := hyp c' hc' hwc
      cases hl : lookup st.min_letter_counts c' with
      | none => rw [hl] at hsome; simp at hsome
      | some v => simp [hwc, hl]
    · have hnm : c' ∉ word := fun hm => hwc (List.elem_iff.mpr hm)
      simp [hnm]
  · intro valid wl upds p hp
    refine run_updates_min_values upds (initSolver valid wl) ?_ p hp
    simp [initSolver]

/-- Witness for C7: a state whose only constraint is gray `'a'` rejects
a word containing `'a'`; with a recorded min count the gray check alone
does not reject. -/
theorem c7_gray_needs_min_witness :
    is_consistent
      { all_valid_words := [], possible_words := [],
        word_length := WORD_LENGTH, guesses_history := [],
        feedback_history := [], green_letters := [], yellow_letters := [],
        gray_letters := ['a'], min_letter_counts := [] }
      ['a', 'b', 'c', 'd', 'e'] = false ∧
    grayOk ['a'] [] ['x', 'y', 'z', 'v', 'w'] = true :=
  ⟨(c7_gray_needs_min
      { all_valid_words := [], possible_words := [],
        word_length := WORD_LENGTH, guesses_history := [],
        feedback_history := [], green_letters := [], yellow_letters := [],
        gray_letters := ['a'], min_letter_counts := [] }
      ['a', 'b', 'c', 'd', 'e'] 'a').1 (by decide) (by decide) (by decide),
   (c7_gray_needs_min
      { all_valid_words := [], possible_words := [],
        word_length := WORD_LENGTH, guesses_history := [],
        feedback_history := [], green_letters := [], yellow_letters := [],
        gray_letters := ['a'], min_letter_counts := [] }
      ['x', 'y', 'z', 'v', 'w'] 'a').2.1 (by decide)⟩

/-- C8: at attempt `k ≥ 2` with an empty candidate set, `get_next_guess`
returns the injected random draw from the original full corpus (a member
of it) and surfaces the condition by printing the dedicated error line —
a message no non-empty-candidate invocation ever produces. -/
theorem c8_empty_candidates (cA cP : List (List Char) → List Char)
    (csp : List (List Char) → Option (List Char)) (st : SolverState)
    (attempt : Nat) (hatt : 2 ≤ attempt) (hemp : st.possible_words = [])
    (hpick : cA st.all_valid_words ∈ st.all_valid_words) :
    get_next_guess cA cP csp st attempt =
      ([emptyPossibleMsg], cA st.all_valid_words) ∧
    cA st.all_valid_words ∈ st.all_valid_words ∧
    (∀ st2 : SolverState, st2.possible_words ≠ [] →
      emptyPossibleMsg ∉ (get_next_guess cA cP csp st2 attempt).1) := by
  have h0 : attempt ≠ 0 := by omega
  have h1 : attempt ≠ 1 := by omega
  refine ⟨?_, hpick, ?_⟩
  · simp only [get_next_guess]
    rw [if_neg h0, if_neg h1, if_pos hemp]
  · intro st2 hne
    simp only [get_next_guess]
    rw [if_neg h0, if_neg h1, if_neg hne]
    by_cases hlen : st2.possible_words.length = 1
    · rw [if_pos hlen]
      simp
    · rw [if_neg hlen]
      by_cases hall : st2.possible_words.filter
          (fun w => w.length = st2.word_length) = []
      · rw [if_pos hall]
        simp only [List.mem_singleton]
        decide
      · rw [if_neg hall]
        cases hcsp : csp (st2.possible_words.filter
            (fun w => w.length = st2.word_length)) with
        | some w =>
          simp only [hcsp, List.mem_singleton]
          decide
        | none =>
          simp only [hcsp, List.mem_singleton]
          decide

/-- Witness for C8 at attempt 2 with an empty candidate set. -/
theorem c8_empty_candidates_witness :
    get_next_guess (fun _ => ['p', 'o', 'r', 't', 'a']) (fun _ => [])
      (fun _ => none)
      { all_valid_words := [['p', 'o', 'r', 't', 'a']], possible_words := [],
        word_length := WORD_LENGTH, guesses_history := [],
        feedback_history := [], green_letters := [], yellow_letters := [],
        gray_letters := [], min_letter_counts := [] } 2 =
      ([emptyPossibleMsg], ['p', 'o', 'r', 't', 'a']) ∧
    (['p', 'o', 'r', 't', 'a'] : List Char) ∈ [['p', 'o', 'r', 't', 'a']] ∧
    (∀ st2 : SolverState, st2.possible_words ≠ [] →
      emptyPossibleMsg ∉
        (get_next_guess (fun _ => ['p', 'o', 'r', 't', 'a']) (fun _ => [])
          (fun _ => none) st2 2).1) :=
  c8_empty_candidates (fun _ => ['p', 'o', 'r', 't', 'a']) (fun _ => [])
    (fun _ => none)
    { all_valid_words := [['p', 'o', 'r', 't', 'a']], possible_words := [],
      word_length := WORD_LENGTH, guesses_history := [],
      feedback_history := [], green_letters := [], yellow_letters := [],
      gray_letters := [], min_letter_counts := [] } 2
    (by omega) rfl (by decide)

/-! ## C4: the constraint state does not only grow -/

/-- Counterexample to C4 as stated: `_update_constraints` discards a
letter from a per-position yellow set when a later feedback marks that
letter Correct at the same position (solver.py line 138).  Both
feedback lists are genuine `check_guess` outputs (against two different
secrets): after the first update `'a'` is in `yellow_letters[0]`, after
the second it has been removed. -/
theorem c4_yellow_discard_counterexample :
    check_guess ['a', 'b', 'c', 'd', 'e'] ['f', 'a', 'g', 'h', 'i'] =
      Except.ok (false,
        [('a', Status.present, 0), ('b', Status.absent, 1),
         ('c', Status.absent, 2), ('d', Status.absent, 3),
         ('e', Status.absent, 4)]) ∧
    check_guess ['a', 'b', 'c', 'd', 'e'] ['a', 'f', 'g', 'h', 'i'] =
      Except.ok (false,
        [('a', Status.correct, 0), ('b', Status.absent, 1),
         ('c', Status.absent, 2), ('d', Status.absent, 3),
         ('e', Status.absent, 4)]) ∧
    'a' ∈ lookupD
      (run_updates (initSolver [] WORD_LENGTH)
        [(['a', 'b', 'c', 'd', 'e'],
          [('a', Status.present, 0), ('b', Status.absent, 1),
           ('c', Status.absent, 2), ('d', Status.absent, 3),
           ('e', Status.absent, 4)])]).yellow_letters 0 [] ∧
    'a' ∉ lookupD
      (run_updates (initSolver [] WORD_LENGTH)
        [(['a', 'b', 'c', 'd', 'e'],
          [('a', Status.present, 0), ('b', Status.absent, 1),
           ('c', Status.absent, 2), ('d', Status.absent, 3),
           ('e', Status.absent, 4)]),
         (['a', 'b', 'c', 'd', 'e'],
          [('a', Status.correct, 0), ('b', Status.absent, 1),
           ('c', Status.absent, 2), ('d', Status.absent, 3),
           ('e', Status.absent, 4)])]).yellow_letters 0 [] :=
  ⟨rfl, rfl, by decide, by decide⟩

/-- C4 (corrected): when every feedback of the run — including the new
update — is genuine `check_guess` output against one common secret, the
constraint state only grows: histories are extended, gray letters and
per-position yellow memberships are never lost, green pins keep their
value, and every min count is non-decreasing.  (Without the common
secret the Correct-entry discard of `c4_yellow_discard_counterexample`
can remove a yellow entry.) -/
theorem c4_monotone_model (valid : List (List Char)) (s : List Char)
    (upds : List (List Char × Feedback)) (g : List Char) (fb : Feedback)
    (hupds : ∀ u ∈ upds, ∃ b, check_guess u.1 s = Except.ok (b, u.2))
    (hfb : ∃ b, check_guess g s = Except.ok (b, fb)) :
    (add_feedback (run_updates (initSolver valid WORD_LENGTH) upds) g
        fb).guesses_history =
      (run_updates (initSolver valid WORD_LENGTH) upds).guesses_history ++
        [g] ∧
    (add_feedback (run_updates (initSolver valid WORD_LENGTH) upds) g
        fb).feedback_history =
      (run_updates (initSolver valid WORD_LENGTH) upds).feedback_history ++
        [fb] ∧
    (∀ c ∈ (run_updates (initSolver valid WORD_LENGTH) upds).gray_letters,
      c ∈ (add_feedback (run_updates (initSolver valid WORD_LENGTH) upds) g
        fb).gray_letters) ∧
    (∀ (i : Nat) (c : Char),
      lookup (run_updates (initSolver valid WORD_LENGTH)
        upds).green_letters i = some c →
      lookup (add_feedback (run_updates (initSolver valid WORD_LENGTH) upds)
        g fb).green_letters i = some c) ∧
    (∀ (i : Nat) (c : Char),
      c ∈ lookupD (run_updates (initSolver valid WORD_LENGTH)
        upds).yellow_letters i [] →
      c ∈ lookupD (add_feedback (run_updates (initSolver valid WORD_LENGTH)
        upds) g fb).yellow_letters i []) ∧
    (∀ c : Char,
      lookupD (run_updates (initSolver valid WORD_LENGTH)
        upds).min_letter_counts c 0 ≤
      lookupD (add_feedback (run_updates (initSolver valid WORD_LENGTH)
        upds) g fb).min_letter_counts c 0) := by
  have hMF := run_updates_faithful s upds _ (initSolver_faithful s valid) hupds
  obtain ⟨hG, hY, hGr, hM, hH, hL, hW⟩ := hMF
  obtain ⟨b, hok⟩ := hfb
  have hfact := check_entry_fact hok
  have habs0 := check_absent_fact hok
  obtain ⟨_, _, _, r4, r5, r6⟩ :=
    processEntries_model s fb hfact habs0 fb
      (run_updates (initSolver valid WORD_LENGTH) upds).green_letters
      (run_updates (initSolver valid WORD_LENGTH) upds).yellow_letters
      (run_updates (initSolver valid WORD_LENGTH) upds).gray_letters []
      (fun e he => he) hG hY hGr
  obtain ⟨e1, e2, e3, _, e5, e6, _, _⟩ :=
    add_feedback_defs (run_updates (initSolver valid WORD_LENGTH) upds) g fb
  refine ⟨e5, e6, ?_, ?_, ?_, ?_⟩
  · intro c hc
    rw [e3]
    exact r6 c hc
  · intro i c h
    rw [e1]
    exact r4 i c h
  · intro i c h
    rw [e2]
    exact r5 i c h
  · intro c
    exact add_feedback_min_le _ g fb c

/-- Witness for the corrected C4: empty prior run, secret `"faghi"`,
update with the genuine feedback for guess `"abcde"`. -/
theorem c4_monotone_model_witness :
    (add_feedback (run_updates (initSolver [] WORD_LENGTH) [])
        ['a', 'b', 'c', 'd', 'e']
        [('a', Status.present, 0), ('b', Status.absent, 1),
         ('c', Status.absent, 2), ('d', Status.absent, 3),
         ('e', Status.absent, 4)]).guesses_history =
      (run_updates (initSolver [] WORD_LENGTH) []).guesses_history ++
        [['a', 'b', 'c', 'd', 'e']] ∧
    (add_feedback (run_updates (initSolver [] WORD_LENGTH) [])
        ['a', 'b', 'c', 'd', 'e']
        [('a', Status.present, 0), ('b', Status.absent, 1),
         ('c', Status.absent, 2), ('d', Status.absent, 3),
         ('e', Status.absent, 4)]).feedback_history =
      (run_updates (initSolver [] WORD_LENGTH) []).feedback_history ++
        [[('a', Status.present, 0), ('b', Status.absent, 1),
          ('c', Status.absent, 2), ('d', Status.absent, 3),
          ('e', Status.absent, 4)]] ∧
    (∀ c ∈ (run_updates (initSolver [] WORD_LENGTH) []).gray_letters,
      c ∈ (add_feedback (run_updates (initSolver [] WORD_LENGTH) [])
        ['a', 'b', 'c', 'd', 'e']
        [('a', Status.present, 0), ('b', Status.absent, 1),
         ('c', Status.absent, 2), ('d', Status.absent, 3),
         ('e', Status.absent, 4)]).gray_letters) ∧
    (∀ (i : Nat) (c : Char),
      lookup (run_updates (initSolver [] WORD_LENGTH)
        []).green_letters i = some c →
      lookup (add_feedback (run_updates (initSolver [] WORD_LENGTH) [])
        ['a', 'b', 'c', 'd', 'e']
        [('a', Status.present, 0), ('b', Status.absent, 1),
         ('c', Status.absent, 2), ('d', Status.absent, 3),
         ('e', Status.absent, 4)]).green_letters i = some c) ∧
    (∀ (i : Nat) (c : Char),
      c ∈ lookupD (run_updates (initSolver [] WORD_LENGTH)
        []).yellow_letters i [] →
      c ∈ lookupD (add_feedback (run_updates (initSolver [] WORD_LENGTH) [])
        ['a', 'b', 'c', 'd', 'e']
        [('a', Status.present, 0), ('b', Status.absent, 1),
         ('c', Status.absent, 2), ('d', Status.absent, 3),
         ('e', Status.absent, 4)]).yellow_letters i []) ∧
    (∀ c : Char,
      lookupD (run_updates (initSolver [] WORD_LENGTH)
        []).min_letter_counts c 0 ≤
      lookupD (add_feedback (run_updates (initSolver [] WORD_LENGTH) [])
        ['a', 'b', 'c', 'd', 'e']
        [('a', Status.present, 0), ('b', Status.absent, 1),
         ('c', Status.absent, 2), ('d', Status.absent, 3),
         ('e', Status.absent, 4)]).min_letter_counts c 0) :=
  c4_monotone_model [] ['f', 'a', 'g', 'h', 'i'] []
    ['a', 'b', 'c', 'd', 'e']
    [('a', Status.present, 0), ('b', Status.absent, 1),
     ('c', Status.absent, 2), ('d', Status.absent, 3),
     ('e', Status.absent, 4)]
    (by simp) ⟨false, rfl⟩

end TermoSolver
